import Mathlib

/-!
Verification development for the textgraph repository (tg).

The development shallowly embeds the Python sources:
  * `src/implementations/python/tgserve.py` — the protocol server
    (`TextGraphServer.interpretLine`): an insertion-ordered node table
    (`graph`), a reverse index (`streetsByDestination`), and an id
    allocator (`nextSquareId`).
  * `src/implementations/python/textgraph.py` — the server-backed store
    (`TextGraph`): staged squares, apply/undo/redo transaction log, and
    the cascading/subtree deletion algorithms.
  * `src/editors-and-viewers/python/mge.py` — the positional in-memory
    store variant (used for the subtree-deletion claim, whose bug lives
    in code shared by both variants).

Python dictionaries are modeled as insertion-ordered association lists
(`dictGet` = first match, `dictSet` = update in place or append,
`dictErase` = remove). Python strings are compared by code point, which
is exactly lexicographic comparison of `String.data`. Node text uses
`Option String` (`None` = tombstone). Machine integers do not overflow
here (Python ints are unbounded), so ids are `Nat`.
-/

/-- Lexicographic comparison of char lists, matching Python string
comparison (code-point lexicographic). -/
def charListLt : List Char → List Char → Bool
  | [], [] => false
  | [], _ :: _ => true
  | _ :: _, [] => false
  | a :: as, b :: bs => if a < b then true else if b < a then false else charListLt as bs

/-- Python string `<`. -/
def pyStrLt (a b : String) : Bool :=
  charListLt a.data b.data

/-- Entries of the reverse index are `[origin, name, destination]`
triples, as appended by `interpretLine`. -/
abbrev StreetEntry := Nat × String × Nat

/-- Python list comparison of `[origin, name, destination]` triples:
lexicographic by origin, then name, then destination. This is the order
used by `self.streetsByDestination[destination].sort()`. -/
def entryLe (a b : StreetEntry) : Bool :=
  if a.1 < b.1 then true
  else if b.1 < a.1 then false
  else if pyStrLt a.2.1 b.2.1 then true
  else if pyStrLt b.2.1 a.2.1 then false
  else a.2.2 ≤ b.2.2

/-- Stable insertion used to model Python `list.sort()`. The order
`entryLe` is total and antisymmetric, so any sorted permutation is the
unique result `list.sort()` produces. -/
def sortInsert (le : α → α → Bool) (x : α) : List α → List α
  | [] => [x]
  | y :: ys => if le x y then x :: y :: ys else y :: sortInsert le x ys

/-- Model of Python `list.sort()` (insertion sort; see `sortInsert`). -/
def pySort (le : α → α → Bool) (l : List α) : List α :=
  l.foldr (sortInsert le) []

/-- Sorting the reverse-index bucket for one destination. -/
def sortEntries (l : List StreetEntry) : List StreetEntry :=
  pySort entryLe l

/-- A committed node record as stored in `TextGraphServer.graph`:
`[squareId, text, streets]` with non-null text (deletion removes the
entry entirely). Streets are `[name, destination]` pairs. -/
structure SquareRec where
  text : String
  streets : List (String × Nat)
deriving DecidableEq

/-- First-match lookup in an insertion-ordered association list
(Python `d[k]` / `k in d`). -/
def dictGet (g : List (Nat × α)) (k : Nat) : Option α :=
  match g with
  | [] => none
  | p :: rest => if p.1 = k then some p.2 else dictGet rest k

/-- Python `d[k] = v`: update in place if the key exists, else append. -/
def dictSet (g : List (Nat × α)) (k : Nat) (v : α) : List (Nat × α) :=
  match g with
  | [] => [(k, v)]
  | p :: rest => if p.1 = k then (k, v) :: rest else p :: dictSet rest k v

/-- Python `del d[k]` (keys are unique in a real dict, so removing all
matches is the same as removing the one entry). -/
def dictErase (g : List (Nat × α)) (k : Nat) : List (Nat × α) :=
  g.filter (fun p => p.1 ≠ k)

/-- Lookup with a default, for reverse-index buckets
(`self.streetsByDestination[d]` where a missing key acts as `[]`). -/
def dictGetD (g : List (Nat × α)) (k : Nat) (d : α) : α :=
  (dictGet g k).getD d

/-- State of `TextGraphServer` (tgserve.py): node table, reverse index
`streetsByDestination`, and id allocator `nextSquareId`. The
`readonly` flag is handled by a separate step function
(`stepReadonly`), mirroring the separate branch in `interpretLine`. -/
structure ServerState where
  graph : List (Nat × SquareRec)
  index : List (Nat × List StreetEntry)
  nextSquareId : Nat
deriving DecidableEq

/-- The tail of one wire operation after the id: `[id]`, `[id, text]`,
or `[id, text, streets]` (tgserve.py reads `square[1]` and `square[2]`,
falling back to the stored node on `IndexError`). -/
inductive OpRest where
  | none0 : OpRest
  | text1 : Option String → OpRest
  | full : Option String → List (String × Nat) → OpRest
deriving DecidableEq

/-- One wire operation: `idOpt = none` models `[null, ...]`
(allocation). -/
structure Op where
  idOpt : Option Nat
  rest : OpRest
deriving DecidableEq

/-- The per-operation entry of the first response line:
`[squareId, text, streets, incommingStreets]`, plus the per-operation
status from the second response line (`None` on success, a string
otherwise). -/
structure OpResult where
  id : Nat
  text : Option String
  streets : List (String × Nat)
  incomming : List StreetEntry
  status : Option String
deriving DecidableEq

/-- Lines 78-83 of tgserve.py: resolve the id, allocating
`nextSquareId` for `null` and advancing the watermark when the id is
strictly above it (note `>` rather than `>=`). -/
def resolveId (s : ServerState) (idOpt : Option Nat) : ServerState × Nat :=
  match idOpt with
  | none => ({ s with nextSquareId := s.nextSquareId + 1 }, s.nextSquareId)
  | some i =>
    if s.nextSquareId < i then ({ s with nextSquareId := i + 1 }, i) else (s, i)

/-- Lines 121-123 of tgserve.py: before overwriting a node, drop the
stale reverse-index entries of its old streets (all entries whose
origin is the node being overwritten). -/
def indexCleanup (idx : List (Nat × List StreetEntry)) (id : Nat) :
    List (String × Nat) → List (Nat × List StreetEntry)
  | [] => idx
  | st :: rest =>
    indexCleanup
      (dictSet idx st.2 ((dictGetD idx st.2 []).filter (fun e => e.1 ≠ id))) id rest

/-- Lines 125-129 of tgserve.py: insert the new streets into the
reverse index, appending each `[origin, name, destination]` entry and
re-sorting its destination bucket. -/
def indexInsert (idx : List (Nat × List StreetEntry)) (id : Nat) :
    List (String × Nat) → List (Nat × List StreetEntry)
  | [] => idx
  | st :: rest =>
    indexInsert
      (dictSet idx st.2 (sortEntries (dictGetD idx st.2 [] ++ [(id, st.1, st.2)]))) id rest

/-- The "Square does not exist." reply (lines 100-103 and 106-119). -/
def notExistResult (id : Nat) : OpResult :=
  ⟨id, none, [], [], some "Square does not exist."⟩

/-- The body of one `interpretLine` operation after id resolution
(lines 95-135 of tgserve.py, `readonly = False`). -/
def stepOpCore (s1 : ServerState) (id : Nat) (rest : OpRest) : ServerState × OpResult :=
  -- resolve text (square[1], falling back to the stored node), and
  -- streets (square[2], same fallback); either lookup can fail with
  -- "Square does not exist."
  let resolved : Option (Option String × List (String × Nat)) :=
    match rest with
    | .none0 =>
      match dictGet s1.graph id with
      | none => none
      | some r => some (some r.text, r.streets)
    | .text1 t =>
      match dictGet s1.graph id with
      | none => none
      | some r => some (t, r.streets)
    | .full t strs => some (t, strs)
  match resolved with
  | none => (s1, notExistResult id)
  | some (text, streets) =>
    match text with
    | none =>
      -- deletion (lines 113-119): remove the node, leaving the
      -- reverse index untouched
      match dictGet s1.graph id with
      | none => (s1, notExistResult id)
      | some _ =>
        let s2 := { s1 with graph := dictErase s1.graph id }
        (s2, ⟨id, none, streets, dictGetD s2.index id [], none⟩)
    | some txt =>
      -- upsert (lines 120-129)
      let idx1 :=
        match dictGet s1.graph id with
        | some old => indexCleanup s1.index id old.streets
        | none => s1.index
      let g2 := dictSet s1.graph id ⟨txt, streets⟩
      let idx2 := indexInsert idx1 id streets
      let s2 : ServerState := ⟨g2, idx2, s1.nextSquareId⟩
      (s2, ⟨id, some txt, streets, dictGetD idx2 id [], none⟩)

/-- One operation of `interpretLine` on a writable server (the body of
the `for square in squares` loop, lines 76-135, `readonly = False`):
id resolution followed by `stepOpCore`. -/
def stepOp (s : ServerState) (op : Op) : ServerState × OpResult :=
  let (s1, id) := resolveId s op.idOpt
  stepOpCore s1 id op.rest

/-- A whole request: the operations of one line, processed in order
(the response lists are accumulated in order). -/
def processOps (s : ServerState) : List Op → ServerState × List OpResult
  | [] => (s, [])
  | op :: rest =>
    let (s1, r) := stepOp s op
    let (s2, rs) := processOps s1 rest
    (s2, r :: rs)

/-- The reply to one operation on a read-only server: the echoed
3-element node `self.graph[squareId] + []` and the fixed status. -/
structure ReadonlyOut where
  state : ServerState
  id : Nat
  text : String
  streets : List (String × Nat)
  status : String
deriving DecidableEq

/-- Lines 91-94 of tgserve.py: one operation on a read-only server.
The id is resolved (and the allocator advanced) first; then the stored
node is echoed with status "Read only". `self.graph[squareId]` raises
an uncaught `KeyError` when the id is absent, modeled as `none`. -/
def stepReadonly (s : ServerState) (op : Op) : Option ReadonlyOut :=
  let (s1, id) := resolveId s op.idOpt
  match dictGet s1.graph id with
  | none => none
  | some r => some ⟨s1, id, r.text, r.streets, "Read only"⟩

/-- Lines 34-36 of tgserve.py: after loading, ensure square 0 exists. -/
def initAdjust (s : ServerState) : ServerState :=
  match dictGet s.graph 0 with
  | some _ => s
  | none => { s with graph := dictSet s.graph 0 ⟨"", []⟩, nextSquareId := 1 }

/-- The state of a freshly started server with no file
(`TextGraphServer(None)`). -/
def freshServer : ServerState :=
  initAdjust ⟨[], [], 0⟩

/-- A client-side square (textgraph.py `Square`): id, optional text
(`None` = tombstone), and outgoing streets as `(name, destination)`
pairs (`Street.__eq__` compares exactly name and destination). -/
structure Square where
  squareId : Nat
  text : Option String
  streets : List (String × Nat)
deriving DecidableEq

/-- Model of `square.list`: the 3-element wire form `[id, text, streets]` sent
by `__setitem__` and `applyChanges`. -/
def squareToOp (sq : Square) : Op :=
  ⟨some sq.squareId, .full sq.text sq.streets⟩

/-- The server transition of `TextGraph.__getitem__` (send `[key]`). -/
def serverQuery (srv : ServerState) (key : Nat) : ServerState :=
  (stepOp srv ⟨some key, .none0⟩).1

/-- The square decoded from a `[key]` reply (`getSquareFromList`). -/
def queriedSquare (srv : ServerState) (key : Nat) : Square :=
  let r := (stepOp srv ⟨some key, .none0⟩).2
  ⟨r.id, r.text, r.streets⟩

/-- The incoming streets of a `[key]` reply. -/
def queriedIncomming (srv : ServerState) (key : Nat) : List StreetEntry :=
  (stepOp srv ⟨some key, .none0⟩).2.incomming

/-- The server transition of `TextGraph.__setitem__` (send
`square.list` as one operation). -/
def serverSet (srv : ServerState) (sq : Square) : ServerState :=
  (stepOp srv (squareToOp sq)).1

/-- Model of `TextGraph.__delitem__`: `self[key] = Square(key, None, [])`. -/
def serverDel (srv : ServerState) (key : Nat) : ServerState :=
  serverSet srv ⟨key, none, []⟩

/-- State of the server-backed `TextGraph` (textgraph.py): the spawned
server plus the staged buffer and the done/undone transaction stacks.
`handlerCalls` counts invocations of `applyChangesHandler`. The model
covers the writable case (`readonly` is `filename.startswith("http")`,
and the early-return branch of `applyChanges` never runs). -/
structure Client where
  server : ServerState
  stagedSquares : List Square
  done : List (List (Square × Square))
  undone : List (List (Square × Square))
  edited : Bool
  handlerCalls : Nat
deriving DecidableEq

/-- Model of `TextGraph.allocSquare`: send `[None]`, return `response[0][0]`. -/
def allocSquare (c : Client) : Client × Nat :=
  let (srv, r) := stepOp c.server ⟨none, .none0⟩
  ({ c with server := srv }, r.id)

/-- Model of `TextGraph.stageSquare`: append a deep copy to the buffer. -/
def stageSquare (c : Client) (sq : Square) : Client :=
  { c with stagedSquares := c.stagedSquares ++ [sq] }

/-- The loop of `applyChanges` (lines 165-173): read each staged
square's previous state from the server, record the `(before, after)`
pair, and compute `didSomething`. -/
def applyScan (srv : ServerState) :
    List Square → ServerState × List (Square × Square) × Bool
  | [] => (srv, [], false)
  | sq :: rest =>
    let prev := queriedSquare srv sq.squareId
    let srv1 := serverQuery srv sq.squareId
    let changed : Bool :=
      sq.text.isNone || !(prev.text == sq.text && prev.streets == sq.streets)
    let (srv2, pairs, ds) := applyScan srv1 rest
    (srv2, (prev, sq) :: pairs, changed || ds)

/-- Model of `TextGraph.applyChanges` (writable case): scan the staged buffer;
if anything changed, clear the redo stack, send all staged squares as
one request, clear the buffer, push the transaction, mark edited and
fire the handler. Otherwise nothing happens (in particular the staged
buffer is NOT cleared). `saveDraft` only writes a file. -/
def applyChanges (c : Client) : Client :=
  if (applyScan c.server c.stagedSquares).2.2 then
    { server := (processOps (applyScan c.server c.stagedSquares).1
        (c.stagedSquares.map squareToOp)).1
      stagedSquares := []
      done := c.done ++ [(applyScan c.server c.stagedSquares).2.1]
      undone := []
      edited := true
      handlerCalls := c.handlerCalls + 1 }
  else
    { c with server := (applyScan c.server c.stagedSquares).1 }

/-- The `didSomething` value `applyChanges` computes. -/
def applyDidSomething (c : Client) : Bool :=
  (applyScan c.server c.stagedSquares).2.2

/-- The body of the `undo` loop for one `(prevState, postState)` pair:
`self[prev.squareId] = deepcopy(prev)` and, when the previous state was
a tombstone, `del self[prev.squareId]`. Only the server state moves. -/
def undoPair (srv : ServerState) (pair : Square × Square) : ServerState :=
  let srv1 := serverSet srv ⟨pair.1.squareId, pair.1.text, pair.1.streets⟩
  if pair.1.text.isNone then serverDel srv1 pair.1.squareId else srv1

/-- Model of `TextGraph.undo`: pop the latest transaction, restore every
previous state, push the transaction onto the redo stack. -/
def undo (c : Client) : Client :=
  match c.done.getLast? with
  | none => c
  | some tx =>
    { c with
      server := tx.foldl undoPair c.server
      done := c.done.dropLast
      undone := c.undone ++ [tx]
      edited := true
      handlerCalls := c.handlerCalls + 1 }

/-- The body of the `redo` loop for one pair: restore the post state,
deleting when it was a tombstone. -/
def redoPair (srv : ServerState) (pair : Square × Square) : ServerState :=
  if pair.2.text.isSome then
    serverSet srv ⟨pair.2.squareId, pair.2.text, pair.2.streets⟩
  else
    serverDel srv pair.2.squareId

/-- Model of `TextGraph.redo`: pop the latest undone transaction, restore every
post state, push it back onto the done stack. -/
def redo (c : Client) : Client :=
  match c.undone.getLast? with
  | none => c
  | some tx =>
    { c with
      server := tx.foldl redoPair c.server
      undone := c.undone.dropLast
      done := c.done ++ [tx]
      edited := true
      handlerCalls := c.handlerCalls + 1 }

/-- The loop of `getDeleteSquareChanges`: for each incoming-street
entry, query its origin and collect a copy with every street into
`squareId` removed. -/
def deleteChangesLoop (squareId : Nat) (srv : ServerState) :
    List StreetEntry → ServerState × List Square
  | [] => (srv, [])
  | e :: rest =>
    let origin := queriedSquare srv e.1
    let srv1 := serverQuery srv e.1
    let (srv2, tail) := deleteChangesLoop squareId srv1 rest
    (srv2, ⟨origin.squareId, origin.text,
      origin.streets.filter (fun st => st.2 ≠ squareId)⟩ :: tail)

/-- Model of `TextGraph.getDeleteSquareChanges`: for every incoming street of
the square (the test `incommingStreet != squareId` compares a Street
list against an int, which in Python is always unequal without raising,
so it never filters anything), stage a copy of the origin with every
street into `squareId` removed; finally stage a tombstone. -/
def getDeleteSquareChanges (c : Client) (squareId : Nat) : Client × List Square :=
  let inc := queriedIncomming c.server squareId
  let srv0 := serverQuery c.server squareId
  let (srv1, changes) := deleteChangesLoop squareId srv0 inc
  ({ c with server := srv1 }, changes ++ [⟨squareId, none, []⟩])

/-- Model of `TextGraph.deleteSquare`: stage the deletion changes and apply. -/
def deleteSquare (c : Client) (squareId : Nat) : Client :=
  let (c1, changes) := getDeleteSquareChanges c squareId
  applyChanges { c1 with stagedSquares := c1.stagedSquares ++ changes }


/-- Python recursion depth is finite, so `TextGraph.getTree`
(textgraph.py lines 242-248) is modeled with explicit fuel: `none`
means the recursion did not complete within `fuel` nested calls (in
Python, a `RecursionError`). Queries leave the committed graph
unchanged (see `clientGet_graph`), so the traversal is stated over the
graph table directly: `self[squareId].streets` is the stored street
list, `[]` for an absent id. The visited set `tree` is local to each
call, exactly as in the source. -/
def goTreeStreets (recur : Nat → Option (List Nat)) :
    List (String × Nat) → List Nat → Option (List Nat)
  | [], tree => some tree
  | st :: rest, tree =>
    if tree.contains st.2 then goTreeStreets recur rest tree
    else
      match recur st.2 with
      | none => none
      | some sub => goTreeStreets recur rest (tree ++ sub.filter (fun x => !tree.contains x))

/-- See `goTreeStreets`; entry point of `getTree(squareId)`. -/
def getTreeFuel (g : List (Nat × SquareRec)) : Nat → Nat → Option (List Nat)
  | 0, _ => none
  | fuel + 1, squareId =>
    goTreeStreets (fun d => getTreeFuel g fuel d)
      (match dictGet g squareId with
       | some r => r.streets
       | none => [])
      [squareId]

/-- One street value as Python stores it in a square's street list:
either a well-formed `Street` (a `[name, destination]` list with named
accessors) or a bare destination integer, which is what
`deleteTree` appends (`newStreets.append(street.destination)`). -/
inductive SVal where
  | street : String → Nat → SVal
  | bare : Nat → SVal
deriving DecidableEq

/-- Python `==` on two street-list elements. Comparing a bare int with
a `Street` calls `Street.__eq__`, which reads `.name` off the int and
raises `AttributeError`; `none` models that crash. -/
def svalEq : SVal → SVal → Option Bool
  | .street n d, .street n2 d2 => some (n = n2 && d = d2)
  | .bare d, .bare d2 => some (d = d2)
  | _, _ => none

/-- Python `==` on two street lists: unequal lengths compare `False`
without touching elements; equal lengths compare elementwise and can
raise. -/
def svalListEq (a b : List SVal) : Option Bool :=
  if a.length ≠ b.length then some false
  else
    match a, b with
    | [], [] => some true
    | x :: xs, y :: ys =>
      match svalEq x y with
      | none => none
      | some false => some false
      | some true => svalListEq xs ys
    | _, _ => some false

/-- Reading `street.destination` off a street-list element: an `AttributeError`
(`none`) if the element is a bare int. -/
def svalDest : SVal → Option Nat
  | .street _ d => some d
  | .bare _ => none

/-- A square of the positional in-memory store
(editors-and-viewers/python/mge.py). -/
structure MSquare where
  squareId : Nat
  text : Option String
  streets : List SVal
deriving DecidableEq

/-- State of the positional `TextGraph(list)` of mge.py: the squares
list (index = id), the free list `deleted`, the staged buffer and the
transaction stacks. -/
structure MGraph where
  squares : List MSquare
  deleted : List Nat
  stagedSquares : List MSquare
  undone : List (List (MSquare × MSquare))
  done : List (List (MSquare × MSquare))
  edited : Bool
deriving DecidableEq

/-- Model of `getTree` of mge.py (lines 216-222), with fuel; street elements
must be well-formed (`street.destination` on a bare int raises). -/
def mgeGoStreets (recur : Nat → Option (List Nat)) :
    List SVal → List Nat → Option (List Nat)
  | [], tree => some tree
  | sv :: rest, tree =>
    match svalDest sv with
    | none => none
    | some d =>
      if tree.contains d then mgeGoStreets recur rest tree
      else
        match recur d with
        | none => none
        | some sub => mgeGoStreets recur rest (tree ++ sub.filter (fun x => !tree.contains x))

/-- See `mgeGoStreets`; entry point of mge.py `getTree(squareId)`. -/
def mgeGetTreeFuel (squares : List MSquare) : Nat → Nat → Option (List Nat)
  | 0, _ => none
  | fuel + 1, squareId =>
    mgeGoStreets (fun d => mgeGetTreeFuel squares fuel d)
      (match squares.get? squareId with
       | some sq => sq.streets
       | none => [])
      [squareId]

/-- The loop body of mge.py `applyChanges` (lines 122-132) for one
staged square: maintain the free list, read the previous state
(`self[square.squareId]`, an `IndexError` crash if out of range),
record the pair, and overwrite in place when text or streets differ.
The street comparison can raise (`none`); Python's `and` is lazy, so
it is only evaluated when the texts are equal. -/
def mgeApplyStep (acc : List MSquare × List Nat × List (MSquare × MSquare) × Bool)
    (sq : MSquare) : Option (List MSquare × List Nat × List (MSquare × MSquare) × Bool) :=
  let (squares, deleted, didNow, didSomething) := acc
  let deleted1 :=
    if sq.text.isNone then deleted ++ [sq.squareId]
    else if deleted.contains sq.squareId then deleted.erase sq.squareId
    else deleted
  match squares.get? sq.squareId with
  | none => none
  | some prev =>
    let didNow1 := didNow ++ [(prev, sq)]
    let eqTexts : Bool := prev.text == sq.text
    let eqStreets : Option Bool :=
      if eqTexts then svalListEq prev.streets sq.streets else some false
    match eqStreets with
    | none => none
    | some eqS =>
      if eqTexts && eqS then
        some (squares, deleted1, didNow1, didSomething)
      else
        some (squares.set sq.squareId ⟨prev.squareId, sq.text, sq.streets⟩,
          deleted1, didNow1, true)

/-- Model of `applyChanges` of mge.py (lines 119-139). `saveDraft` only writes
a file. When nothing changed the staged buffer is left in place. -/
def mgeApplyChanges (g : MGraph) : Option MGraph :=
  match g.stagedSquares.foldlM mgeApplyStep (g.squares, g.deleted, [], false) with
  | none => none
  | some (squares, deleted, didNow, didSomething) =>
    if didSomething then
      some { g with
        squares := squares
        deleted := deleted
        stagedSquares := []
        undone := []
        done := g.done ++ [didNow]
        edited := true }
    else
      some { g with squares := squares, deleted := deleted }

/-- The street-trimming loop of mge.py `deleteTree` (lines 228-231):
`newStreets.append(street.destination)` appends the bare destination
int, not the street. -/
def mgeTrimStreets (doomed : List Nat) : List SVal → Option (List SVal)
  | [] => some []
  | sv :: rest =>
    match svalDest sv with
    | none => none
    | some d =>
      match mgeTrimStreets doomed rest with
      | none => none
      | some tail => if doomed.contains d then some tail else some (.bare d :: tail)

/-- Model of `deleteTree` of mge.py (lines 224-236): compute the doomed set,
stage a trimmed copy of every surviving square whose street list
compares unequal to the trimmed one (`newStreets != square.streets`
can raise when an int meets a `Street`), stage a tombstone for every
doomed id, and apply. -/
def mgeDeleteTree (fuel : Nat) (g : MGraph) (squareId : Nat) : Option MGraph :=
  match mgeGetTreeFuel g.squares fuel squareId with
  | none => none
  | some doomed =>
    let staged1 :=
      g.squares.foldlM
        (fun (acc : List MSquare) sq =>
          if doomed.contains sq.squareId then some acc
          else
            match mgeTrimStreets doomed sq.streets with
            | none => none
            | some newStreets =>
              match svalListEq newStreets sq.streets with
              | none => none
              | some eq => if eq then some acc else some (acc ++ [⟨sq.squareId, sq.text, newStreets⟩]))
        []
    match staged1 with
    | none => none
    | some staged =>
      let tombs := doomed.map (fun d => (⟨d, none, []⟩ : MSquare))
      mgeApplyChanges { g with stagedSquares := g.stagedSquares ++ staged ++ tombs }

/-- A classified line of an id-tagged persisted file, after
`json.loads` (textgraph.py `json` setter, lines 280-305): leading
blank or `#` lines, well-formed `[id, text, streets]` records. -/
inductive FileLine where
  | blank : FileLine
  | comment : String → FileLine
  | record : Nat → Option String → List (String × Nat) → FileLine
deriving DecidableEq

/-- The `json` setter of the server-backed `TextGraph` (textgraph.py
lines 280-305). `TextGraph.__init__` never defines `nextSquareId`, so
the attribute starts absent (`none`); the record branch evaluates
`squareId >= self.nextSquareId` inside `try/except TypeError`, and the
resulting `AttributeError` is caught by neither `except TypeError` nor
the outer `except ValueError`, so it escapes (`Except.error`). -/
def jsonSet (c : Client) (lines : List FileLine) : Except String (Client × String) :=
  go c "" true none lines
where
  /-- One `for line in text.splitlines()` iteration. -/
  go (c : Client) (header : String) (readingHeader : Bool)
      (nextSquareIdAttr : Option Nat) :
      List FileLine → Except String (Client × String)
    | [] => .ok (c, header)
    | .blank :: rest =>
      go c (if readingHeader then header ++ "\n" else header) readingHeader
        nextSquareIdAttr rest
    | .comment s :: rest =>
      go c (if readingHeader then header ++ s ++ "\n" else header) readingHeader
        nextSquareIdAttr rest
    | .record id text streets :: rest =>
      let c1 := { c with server := serverSet c.server ⟨id, text, streets⟩ }
      match nextSquareIdAttr with
      | none => .error "AttributeError: TextGraph object has no attribute nextSquareId"
      | some n =>
        go c1 header false (if n ≤ id then some (id + 1) else some n) rest

/-- The `[origin, name, destination]` entries one node's street list
contributes for destination `d`. -/
def streetContrib (i : Nat) (strs : List (String × Nat)) (d : Nat) : List StreetEntry :=
  strs.filterMap (fun st => if st.2 = d then some (i, st.1, st.2) else none)

/-- Brute-force scan of all live nodes for edges targeting `d`,
in node-table order: the `[origin, name, destination]` triples the
reverse index is supposed to cache (spec section on the reverse
index). -/
def bruteEntries (g : List (Nat × SquareRec)) (d : Nat) : List StreetEntry :=
  g.flatMap (fun p => streetContrib p.1 p.2.streets d)

/-- The reverse index agrees with a brute-force scan at every
destination (bucket contents are kept sorted by `interpretLine`). -/
def IndexMatches (g : List (Nat × SquareRec)) (idx : List (Nat × List StreetEntry)) : Prop :=
  ∀ d, dictGetD idx d [] = sortEntries (bruteEntries g d)

/-- The invariant `IndexMatches` stated for a server state. -/
def IndexConsistent (s : ServerState) : Prop :=
  IndexMatches s.graph s.index

/-- Keys of the node table are unique (always true of a Python dict). -/
def GraphKeysNodup (s : ServerState) : Prop :=
  (s.graph.map (fun p => p.1)).Nodup

-- ### Order facts about the bucket sort

theorem charListLt_asymm {a b : List Char} (h : charListLt a b = true) :
    charListLt b a = false := by
  induction a generalizing b with
  | nil =>
    cases b with
    | nil => simp [charListLt] at h
    | cons y ys => simp [charListLt]
  | cons x xs ih =>
    cases b with
    | nil => simp [charListLt] at h
    | cons y ys =>
      simp only [charListLt] at h ⊢
      by_cases hxy : x < y
      · have : ¬ y < x := lt_asymm hxy
        simp [hxy, this]
      · by_cases hyx : y < x
        · simp [hxy, hyx] at h
        · simp [hxy, hyx] at h ⊢
          exact ih h

theorem charListLt_trans {a b c : List Char} (h1 : charListLt a b = true)
    (h2 : charListLt b c = true) : charListLt a c = true := by
  induction a generalizing b c with
  | nil =>
    cases c with
    | nil =>
      cases b with
      | nil => simp [charListLt] at h1
      | cons y ys => simp [charListLt] at h2
    | cons z zs => simp [charListLt]
  | cons x xs ih =>
    cases b with
    | nil => simp [charListLt] at h1
    | cons y ys =>
      cases c with
      | nil => simp [charListLt] at h2
      | cons z zs =>
        simp only [charListLt] at h1 h2 ⊢
        by_cases hxy : x < y
        · by_cases hyz : y < z
          · simp [lt_trans hxy hyz]
          · by_cases hzy : z < y
            · simp [hyz, hzy] at h2
            · have hyzeq : y = z := le_antisymm (not_lt.mp hzy) (not_lt.mp hyz)
              subst hyzeq
              simp [hxy]
        · by_cases hyx : y < x
          · simp [hxy, hyx] at h1
          · have hxyeq : x = y := le_antisymm (not_lt.mp hyx) (not_lt.mp hxy)
            subst hxyeq
            by_cases hyz : x < z
            · simp [hyz]
            · by_cases hzy : z < x
              · simp [hyz, hzy] at h2
              · simp [hxy, hyz, hzy] at h1 h2 ⊢
                exact ih h1 h2

theorem charListLt_eq_of_both_false {a b : List Char} (h1 : charListLt a b = false)
    (h2 : charListLt b a = false) : a = b := by
  induction a generalizing b with
  | nil =>
    cases b with
    | nil => rfl
    | cons y ys => simp [charListLt] at h1
  | cons x xs ih =>
    cases b with
    | nil => simp [charListLt] at h2
    | cons y ys =>
      simp only [charListLt] at h1 h2
      by_cases hxy : x < y
      · simp [hxy] at h1
      · by_cases hyx : y < x
        · simp [hxy, hyx] at h2
        · have hxyeq : x = y := le_antisymm (not_lt.mp hyx) (not_lt.mp hxy)
          subst hxyeq
          simp [hxy] at h1 h2
          exact congrArg (x :: ·) (ih h1 h2)

theorem pyStrLt_asymm {a b : String} (h : pyStrLt a b = true) : pyStrLt b a = false :=
  charListLt_asymm h

theorem pyStrLt_trans {a b c : String} (h1 : pyStrLt a b = true)
    (h2 : pyStrLt b c = true) : pyStrLt a c = true :=
  charListLt_trans h1 h2

theorem pyStrLt_eq_of_both_false {a b : String} (h1 : pyStrLt a b = false)
    (h2 : pyStrLt b a = false) : a = b :=
  String.ext (charListLt_eq_of_both_false h1 h2)

theorem entryLe_total (a b : StreetEntry) : entryLe a b = true ∨ entryLe b a = true := by
  unfold entryLe
  by_cases h1 : a.1 < b.1
  · left; simp [h1]
  · by_cases h2 : b.1 < a.1
    · right; simp [h2, lt_asymm h2]
    · by_cases h3 : pyStrLt a.2.1 b.2.1 = true
      · left; simp [h1, h2, h3]
      · by_cases h4 : pyStrLt b.2.1 a.2.1 = true
        · right; simp [h1, h2, h4]
        · rcases Nat.le_total a.2.2 b.2.2 with h5 | h5
          · left; simp [h1, h2, h3, h4, h5]
          · right; simp [h1, h2, h3, h4, h5]

theorem entryLe_antisymm {a b : StreetEntry} (h1 : entryLe a b = true)
    (h2 : entryLe b a = true) : a = b := by
  unfold entryLe at h1 h2
  by_cases c1 : a.1 < b.1
  · simp [c1, lt_asymm c1] at h2
  · by_cases c2 : b.1 < a.1
    · simp [c1, c2] at h1
    · have e1 : a.1 = b.1 := le_antisymm (not_lt.mp c2) (not_lt.mp c1)
      by_cases c3 : pyStrLt a.2.1 b.2.1 = true
      · simp [c1, c2, c3, pyStrLt_asymm c3] at h2
      · by_cases c4 : pyStrLt b.2.1 a.2.1 = true
        · simp [c1, c2, c3, c4] at h1
        · have e2 : a.2.1 = b.2.1 :=
            pyStrLt_eq_of_both_false (Bool.not_eq_true _ ▸ c3) (Bool.not_eq_true _ ▸ c4)
          simp [c1, c2, c3, c4] at h1 h2
          have e3 : a.2.2 = b.2.2 := le_antisymm h1 h2
          exact Prod.ext e1 (Prod.ext e2 e3)

theorem entryLe_trans {a b c : StreetEntry} (h1 : entryLe a b = true)
    (h2 : entryLe b c = true) : entryLe a c = true := by
  unfold entryLe at h1 h2 ⊢
  by_cases c1 : a.1 < b.1
  · by_cases c2 : b.1 < c.1
    · simp [lt_trans c1 c2]
    · by_cases c3 : c.1 < b.1
      · simp [c2, c3] at h2
      · have : b.1 = c.1 := le_antisymm (not_lt.mp c3) (not_lt.mp c2)
        rw [this] at c1
        simp [c1]
  · by_cases c2 : b.1 < a.1
    · simp [c1, c2] at h1
    · have e1 : a.1 = b.1 := le_antisymm (not_lt.mp c2) (not_lt.mp c1)
      rw [e1]
      by_cases c3 : pyStrLt a.2.1 b.2.1 = true
      · by_cases c4 : b.1 < c.1
        · simp [c4]
        · by_cases c5 : c.1 < b.1
          · simp [c4, c5] at h2
          · by_cases c6 : pyStrLt b.2.1 c.2.1 = true
            · simp [c4, c5, pyStrLt_trans c3 c6]
            · by_cases c7 : pyStrLt c.2.1 b.2.1 = true
              · simp [c4, c5, c6, c7] at h2
              · have e2 : b.2.1 = c.2.1 :=
                  pyStrLt_eq_of_both_false (Bool.not_eq_true _ ▸ c6) (Bool.not_eq_true _ ▸ c7)
                rw [e2] at c3
                simp [c4, c5, c3]
      · by_cases c4 : pyStrLt b.2.1 a.2.1 = true
        · simp [c1, c2, c3, c4] at h1
        · have e2 : a.2.1 = b.2.1 :=
            pyStrLt_eq_of_both_false (Bool.not_eq_true _ ▸ c3) (Bool.not_eq_true _ ▸ c4)
          rw [e2]
          by_cases c5 : b.1 < c.1
          · simp [c5]
          · by_cases c6 : c.1 < b.1
            · simp [c5, c6] at h2
            · by_cases c7 : pyStrLt b.2.1 c.2.1 = true
              · simp [c5, c6, c7]
              · by_cases c8 : pyStrLt c.2.1 b.2.1 = true
                · simp [c5, c6, c7, c8] at h2
                · simp [c1, c2, c3, c4, c5, c6, c7, c8] at h1 h2 ⊢
                  exact le_trans h1 h2

/-- The bucket order as a relation, for `List.Sorted`. -/
def entryLeR (a b : StreetEntry) : Prop :=
  entryLe a b = true

instance : IsAntisymm StreetEntry entryLeR :=
  ⟨fun _ _ h1 h2 => entryLe_antisymm h1 h2⟩

theorem sortInsert_perm (le : α → α → Bool) (x : α) (l : List α) :
    (sortInsert le x l).Perm (x :: l) := by
  induction l with
  | nil => simp [sortInsert]
  | cons y ys ih =>
    simp only [sortInsert]
    by_cases h : le x y
    · simp [h]
    · simp only [h, if_false]
      exact (ih.cons y).trans (List.Perm.swap x y ys)

theorem pySort_perm (le : α → α → Bool) (l : List α) : (pySort le l).Perm l := by
  induction l with
  | nil => simp [pySort]
  | cons x xs ih =>
    simp only [pySort, List.foldr] at ih ⊢
    exact (sortInsert_perm le x _).trans (ih.cons x)

theorem mem_sortInsert {le : α → α → Bool} {x b : α} {l : List α} :
    b ∈ sortInsert le x l ↔ b = x ∨ b ∈ l := by
  rw [(sortInsert_perm le x l).mem_iff]
  simp

theorem sortInsert_sorted {x : StreetEntry} {l : List StreetEntry}
    (hs : List.Sorted entryLeR l) : List.Sorted entryLeR (sortInsert entryLe x l) := by
  induction l with
  | nil => simp [sortInsert]
  | cons y ys ih =>
    simp only [sortInsert]
    rw [List.sorted_cons] at hs
    cases hxy : entryLe x y with
    | true =>
      simp only [hxy, if_true]
      rw [List.sorted_cons]
      refine ⟨?_, List.sorted_cons.mpr hs⟩
      intro b hb
      rcases List.mem_cons.mp hb with hb | hb
      · exact hb ▸ hxy
      · exact entryLe_trans hxy (hs.1 b hb)
    | false =>
      simp only [hxy, Bool.false_eq_true, if_false]
      rw [List.sorted_cons]
      refine ⟨?_, ih hs.2⟩
      intro b hb
      rcases mem_sortInsert.mp hb with hb | hb
      · subst hb
        rcases entryLe_total y b with h2 | h2
        · exact h2
        · rw [h2] at hxy
          exact absurd hxy (by simp)
      · exact hs.1 b hb

theorem sortEntries_sorted (l : List StreetEntry) :
    List.Sorted entryLeR (sortEntries l) := by
  induction l with
  | nil => simp [sortEntries, pySort]
  | cons x xs ih =>
    simpa [sortEntries, pySort] using sortInsert_sorted (by simpa [sortEntries, pySort] using ih)

theorem sortEntries_perm (l : List StreetEntry) : (sortEntries l).Perm l :=
  pySort_perm entryLe l

/-- Python `list.sort()` is determined by the multiset of entries: the order
is total and antisymmetric, so the sorted permutation is unique. -/
theorem sortEntries_eq_of_perm {l1 l2 : List StreetEntry} (h : l1.Perm l2) :
    sortEntries l1 = sortEntries l2 :=
  List.eq_of_perm_of_sorted ((sortEntries_perm l1).trans (h.trans (sortEntries_perm l2).symm))
    (sortEntries_sorted l1) (sortEntries_sorted l2)

/-- A sorted bucket re-sorts to itself. -/
theorem sortEntries_of_sorted {l : List StreetEntry} (h : List.Sorted entryLeR l) :
    sortEntries l = l :=
  List.eq_of_perm_of_sorted (sortEntries_perm l) (sortEntries_sorted l) h

-- ### Association-list (Python dict) facts

theorem dictGet_dictSet (g : List (Nat × α)) (k : Nat) (v : α) (j : Nat) :
    dictGet (dictSet g k v) j = if j = k then some v else dictGet g j := by
  induction g with
  | nil =>
    by_cases h : j = k
    · simp [dictSet, dictGet, h]
    · simp [dictSet, dictGet, h, Ne.symm h]
  | cons p rest ih =>
    simp only [dictSet]
    by_cases h1 : p.1 = k
    · by_cases h2 : j = k
      · simp [dictGet, h1, h2]
      · have h3 : ¬ (k = j) := fun hh => h2 hh.symm
        have h4 : ¬ (p.1 = j) := h1 ▸ h3
        simp [dictGet, h2, h3, h4, h1]
    · by_cases h2 : p.1 = j
      · have h3 : ¬ (j = k) := fun hh => h1 (h2.trans hh)
        simp [dictGet, h1, h2, h3]
      · simp [dictGet, h1, h2, ih]

theorem dictGet_dictErase (g : List (Nat × α)) (k j : Nat) :
    dictGet (dictErase g k) j = if j = k then none else dictGet g j := by
  induction g with
  | nil => simp [dictErase, dictGet]
  | cons p rest ih =>
    by_cases h1 : p.1 = k
    · have h5 : dictErase (p :: rest) k = dictErase rest k := by
        simp [dictErase, List.filter, h1]
      rw [h5, ih]
      by_cases h2 : j = k
      · simp [h2]
      · have h4 : ¬ (p.1 = j) := fun hh => h2 (hh.symm.trans h1)
        simp [dictGet, h2, h4]
    · have h5 : dictErase (p :: rest) k = p :: dictErase rest k := by
        simp [dictErase, List.filter, h1]
      rw [h5]
      by_cases h2 : p.1 = j
      · have h3 : ¬ (j = k) := fun hh => h1 (h2.trans hh)
        simp [dictGet, h2, h3]
      · simp [dictGet, h2, ih]

theorem dictSet_self {g : List (Nat × α)} {k : Nat} {v : α} (h : dictGet g k = some v) :
    dictSet g k v = g := by
  induction g with
  | nil => simp [dictGet] at h
  | cons p rest ih =>
    simp only [dictGet] at h
    simp only [dictSet]
    by_cases h1 : p.1 = k
    · simp only [h1, if_true] at h ⊢
      cases p with
      | mk a b =>
        simp only at h1
        subst h1
        simp only [Option.some.injEq] at h
        subst h
        rfl
    · simp only [h1, if_false] at h ⊢
      rw [ih h]

-- ### Pointwise effect of server operations on the node table

/-- The node-table value an operation with an explicit id leaves at
that id, as a function of the current value. -/
def opNewVal (v : Option SquareRec) : OpRest → Option SquareRec
  | .none0 => v
  | .text1 t =>
    match v with
    | none => none
    | some r =>
      match t with
      | some t2 => some ⟨t2, r.streets⟩
      | none => none
  | .full t strs =>
    match t with
    | some t2 => some ⟨t2, strs⟩
    | none => none

theorem resolveId_graph (s : ServerState) (idOpt : Option Nat) :
    (resolveId s idOpt).1.graph = s.graph := by
  cases idOpt with
  | none => rfl
  | some i =>
    simp only [resolveId]
    by_cases h : s.nextSquareId < i <;> simp [h]

theorem resolveId_index (s : ServerState) (idOpt : Option Nat) :
    (resolveId s idOpt).1.index = s.index := by
  cases idOpt with
  | none => rfl
  | some i =>
    simp only [resolveId]
    by_cases h : s.nextSquareId < i <;> simp [h]

theorem resolveId_some (s : ServerState) (i : Nat) :
    (resolveId s (some i)).2 = i := by
  simp only [resolveId]
  by_cases h : s.nextSquareId < i <;> simp [h]

/-- Pointwise effect of the operation body on the node table. -/
theorem stepOpCore_graph_get (s : ServerState) (i : Nat) (rest : OpRest) (j : Nat) :
    dictGet (stepOpCore s i rest).1.graph j =
      if j = i then opNewVal (dictGet s.graph i) rest else dictGet s.graph j := by
  cases rest with
  | none0 =>
    cases hv : dictGet s.graph i with
    | none =>
      simp only [stepOpCore, hv, opNewVal]
      by_cases h : j = i
      · subst h
        simp [hv]
      · simp [h]
    | some r =>
      simp only [stepOpCore, hv, opNewVal]
      rw [dictGet_dictSet]
  | text1 t =>
    cases hv : dictGet s.graph i with
    | none =>
      simp only [stepOpCore, hv, opNewVal]
      by_cases h : j = i
      · subst h
        simp [hv]
      · simp [h]
    | some r =>
      cases t with
      | none =>
        simp only [stepOpCore, hv, opNewVal]
        rw [dictGet_dictErase]
      | some t2 =>
        simp only [stepOpCore, hv, opNewVal]
        rw [dictGet_dictSet]
  | full t strs =>
    cases t with
    | some t2 =>
      simp only [stepOpCore, opNewVal]
      rw [dictGet_dictSet]
    | none =>
      cases hv : dictGet s.graph i with
      | none =>
        simp only [stepOpCore, hv, opNewVal]
        by_cases h : j = i
        · subst h
          simp [hv]
        · simp [h]
      | some r =>
        simp only [stepOpCore, hv, opNewVal]
        rw [dictGet_dictErase]

/-- Pointwise effect of one explicit-id operation on the node table. -/
theorem stepOp_graph_get (s : ServerState) (i : Nat) (rest : OpRest) (j : Nat) :
    dictGet (stepOp s ⟨some i, rest⟩).1.graph j =
      if j = i then opNewVal (dictGet s.graph i) rest else dictGet s.graph j := by
  have h1 : stepOp s ⟨some i, rest⟩ = stepOpCore (resolveId s (some i)).1 i rest := by
    simp only [stepOp, resolveId_some]
  rw [h1, stepOpCore_graph_get, resolveId_graph]

/-- A query (`[key]`) leaves the node table literally unchanged: for a
stored node it overwrites the same `[id, text, streets]` value in
place, and for a missing node it only reports the error. -/
theorem stepOpCore_query_graph (s : ServerState) (k : Nat) :
    (stepOpCore s k .none0).1.graph = s.graph := by
  cases hv : dictGet s.graph k with
  | none => simp [stepOpCore, hv]
  | some r =>
    simp only [stepOpCore, hv]
    exact dictSet_self hv

theorem stepOp_query_graph (s : ServerState) (k : Nat) :
    (stepOp s ⟨some k, .none0⟩).1.graph = s.graph := by
  have h1 : stepOp s ⟨some k, .none0⟩ = stepOpCore (resolveId s (some k)).1 k .none0 := by
    simp only [stepOp, resolveId_some]
  rw [h1, stepOpCore_query_graph, resolveId_graph]

-- ### Write sequences

/-- The value a client square writes at its id when sent over the wire
(`[id, text, streets]`): an overwrite for live text, a removal for a
tombstone, independent of the current value. -/
def squareVal (sq : Square) : Option SquareRec :=
  match sq.text with
  | some t => some ⟨t, sq.streets⟩
  | none => none

/-- Last-write-wins evaluation of a sequence of keyed writes at one
key. -/
def writeFold (ws : List (Nat × Option SquareRec)) (j : Nat) (d : Option SquareRec) :
    Option SquareRec :=
  ws.foldl (fun acc w => if w.1 = j then w.2 else acc) d

theorem writeFold_nil (j : Nat) (d : Option SquareRec) : writeFold [] j d = d := rfl

theorem writeFold_cons (w : Nat × Option SquareRec) (ws : List (Nat × Option SquareRec))
    (j : Nat) (d : Option SquareRec) :
    writeFold (w :: ws) j d = writeFold ws j (if w.1 = j then w.2 else d) := rfl

theorem writeFold_not_mem {ws : List (Nat × Option SquareRec)} {j : Nat}
    (h : ∀ w ∈ ws, w.1 ≠ j) (d : Option SquareRec) : writeFold ws j d = d := by
  induction ws generalizing d with
  | nil => rfl
  | cons w ws ih =>
    rw [writeFold_cons, if_neg (h w (List.mem_cons_self w ws))]
    exact ih (fun w2 hw => h w2 (List.mem_cons_of_mem w hw)) d

theorem writeFold_const {ws : List (Nat × Option SquareRec)} {j : Nat}
    {v : Option SquareRec} (hall : ∀ w ∈ ws, w.1 = j → w.2 = v) (d : Option SquareRec)
    (hd : d = v) : writeFold ws j d = v := by
  induction ws generalizing d with
  | nil => exact hd
  | cons w ws ih =>
    rw [writeFold_cons]
    by_cases h : w.1 = j
    · exact ih (fun w2 hw => hall w2 (List.mem_cons_of_mem w hw))
        _ (by rw [if_pos h]; exact hall w (List.mem_cons_self w ws) h)
    · exact ih (fun w2 hw => hall w2 (List.mem_cons_of_mem w hw)) _ (by rw [if_neg h]; exact hd)

theorem writeFold_mem {ws : List (Nat × Option SquareRec)} {j : Nat}
    {v : Option SquareRec} (hall : ∀ w ∈ ws, w.1 = j → w.2 = v)
    (hmem : ∃ w ∈ ws, w.1 = j) (d : Option SquareRec) : writeFold ws j d = v := by
  induction ws generalizing d with
  | nil => simp at hmem
  | cons w ws ih =>
    rw [writeFold_cons]
    by_cases h : w.1 = j
    · exact writeFold_const (fun w2 hw => hall w2 (List.mem_cons_of_mem w hw)) _
        (by rw [if_pos h]; exact hall w (List.mem_cons_self w ws) h)
    · rcases hmem with ⟨w2, hw2, hkey⟩
      rcases List.mem_cons.mp hw2 with rfl | hw2
      · exact absurd hkey h
      · exact ih (fun w3 hw => hall w3 (List.mem_cons_of_mem w hw)) ⟨w2, hw2, hkey⟩ _

/-- Folding `processOps` over full-arity explicit-id operations acts on the
node table as a sequence of unconditional keyed writes. -/
theorem processOps_graph_get (sqs : List Square) (s : ServerState) (j : Nat) :
    dictGet (processOps s (sqs.map squareToOp)).1.graph j =
      writeFold (sqs.map (fun sq => (sq.squareId, squareVal sq))) j (dictGet s.graph j) := by
  induction sqs generalizing s with
  | nil => rfl
  | cons sq rest ih =>
    simp only [List.map, processOps, writeFold_cons]
    have hstep := stepOp_graph_get s sq.squareId (.full sq.text sq.streets) j
    have hval : opNewVal (dictGet s.graph sq.squareId) (.full sq.text sq.streets)
        = squareVal sq := by
      cases htext : sq.text with
      | none => simp [opNewVal, squareVal, htext]
      | some t => simp [opNewVal, squareVal, htext]
    rw [ih]
    by_cases h : sq.squareId = j
    · subst h
      rw [if_pos rfl]
      have : dictGet (stepOp s (squareToOp sq)).1.graph sq.squareId = squareVal sq := by
        rw [show squareToOp sq = ⟨some sq.squareId, .full sq.text sq.streets⟩ from rfl,
          hstep, if_pos rfl, hval]
      rw [this]
    · rw [if_neg h]
      have : dictGet (stepOp s (squareToOp sq)).1.graph j = dictGet s.graph j := by
        rw [show squareToOp sq = ⟨some sq.squareId, .full sq.text sq.streets⟩ from rfl,
          hstep, if_neg (fun hh => h hh.symm)]
      rw [this]

-- ### Client-level facts

/-- The square a query returns for `key`: the stored node, or the
tombstone representation `[key, null, []]` when the id is absent. -/
def prevOf (g : List (Nat × SquareRec)) (k : Nat) : Square :=
  match dictGet g k with
  | some r => ⟨k, some r.text, r.streets⟩
  | none => ⟨k, none, []⟩

theorem squareVal_prevOf (g : List (Nat × SquareRec)) (k : Nat) :
    squareVal (prevOf g k) = dictGet g k := by
  cases hv : dictGet g k with
  | none => simp [prevOf, hv, squareVal]
  | some r => simp [prevOf, hv, squareVal]

theorem queriedSquare_eq_prevOf (srv : ServerState) (k : Nat) :
    queriedSquare srv k = prevOf srv.graph k := by
  have h1 : stepOp srv ⟨some k, .none0⟩ = stepOpCore (resolveId srv (some k)).1 k .none0 := by
    simp only [stepOp, resolveId_some]
  have hg := resolveId_graph srv (some k)
  simp only [queriedSquare, h1]
  cases hv : dictGet srv.graph k with
  | none =>
    simp only [stepOpCore, hg, hv, prevOf, notExistResult]
  | some r =>
    simp only [stepOpCore, hg, hv, prevOf]

theorem serverQuery_graph (srv : ServerState) (k : Nat) :
    (serverQuery srv k).graph = srv.graph :=
  stepOp_query_graph srv k

theorem serverSet_graph_get (srv : ServerState) (sq : Square) (j : Nat) :
    dictGet (serverSet srv sq).graph j =
      if sq.squareId = j then squareVal sq else dictGet srv.graph j := by
  have hval : opNewVal (dictGet srv.graph sq.squareId) (.full sq.text sq.streets)
      = squareVal sq := by
    cases htext : sq.text with
    | none => simp [opNewVal, squareVal, htext]
    | some t => simp [opNewVal, squareVal, htext]
  rw [show serverSet srv sq = (stepOp srv ⟨some sq.squareId, .full sq.text sq.streets⟩).1
      from rfl]
  rw [stepOp_graph_get, hval]
  by_cases h : j = sq.squareId
  · simp [h]
  · simp [h, Ne.symm h]

theorem undoPair_graph_get (srv : ServerState) (p : Square × Square) (j : Nat) :
    dictGet (undoPair srv p).graph j =
      if p.1.squareId = j then squareVal p.1 else dictGet srv.graph j := by
  simp only [undoPair, serverDel]
  cases htext : p.1.text with
  | none =>
    simp only [htext, Option.isNone_none, if_true]
    rw [serverSet_graph_get, serverSet_graph_get]
    by_cases h : p.1.squareId = j
    · simp [h, squareVal, htext]
    · simp [h]
  | some t =>
    simp only [htext, Option.isNone_some, Bool.false_eq_true, if_false]
    rw [serverSet_graph_get]
    by_cases h : p.1.squareId = j
    · simp [h, squareVal, htext]
    · simp [h]

theorem redoPair_graph_get (srv : ServerState) (p : Square × Square) (j : Nat) :
    dictGet (redoPair srv p).graph j =
      if p.2.squareId = j then squareVal p.2 else dictGet srv.graph j := by
  simp only [redoPair, serverDel]
  cases htext : p.2.text with
  | none =>
    simp only [htext, Option.isSome_none, Bool.false_eq_true, if_false]
    rw [serverSet_graph_get]
    by_cases h : p.2.squareId = j
    · simp [h, squareVal, htext]
    · simp [h]
  | some t =>
    simp only [htext, Option.isSome_some, if_true]
    rw [serverSet_graph_get]
    by_cases h : p.2.squareId = j
    · simp [h, squareVal, htext]
    · simp [h]

theorem undoFold_graph_get (tx : List (Square × Square)) (srv : ServerState) (j : Nat) :
    dictGet (tx.foldl undoPair srv).graph j =
      writeFold (tx.map (fun p => (p.1.squareId, squareVal p.1))) j (dictGet srv.graph j) := by
  induction tx generalizing srv with
  | nil => rfl
  | cons p rest ih =>
    simp only [List.foldl, List.map, writeFold_cons]
    rw [ih, undoPair_graph_get]

theorem redoFold_graph_get (tx : List (Square × Square)) (srv : ServerState) (j : Nat) :
    dictGet (tx.foldl redoPair srv).graph j =
      writeFold (tx.map (fun p => (p.2.squareId, squareVal p.2))) j (dictGet srv.graph j) := by
  induction tx generalizing srv with
  | nil => rfl
  | cons p rest ih =>
    simp only [List.foldl, List.map, writeFold_cons]
    rw [ih, redoPair_graph_get]

theorem applyScan_graph (srv : ServerState) (l : List Square) :
    (applyScan srv l).1.graph = srv.graph := by
  induction l generalizing srv with
  | nil => rfl
  | cons sq rest ih =>
    simp only [applyScan]
    rw [ih, serverQuery_graph]

theorem applyScan_didNow (srv : ServerState) (l : List Square) :
    (applyScan srv l).2.1 = l.map (fun sq => (prevOf srv.graph sq.squareId, sq)) := by
  induction l generalizing srv with
  | nil => rfl
  | cons sq rest ih =>
    simp only [applyScan, List.map]
    rw [ih, queriedSquare_eq_prevOf, serverQuery_graph]

theorem prevOf_squareId (g : List (Nat × SquareRec)) (k : Nat) :
    (prevOf g k).squareId = k := by
  cases hv : dictGet g k <;> simp [prevOf, hv]

/-- Components of a committed `applyChanges`. -/
theorem applyChanges_of_did {c : Client} (h : applyDidSomething c = true) :
    applyChanges c =
      { server := (processOps (applyScan c.server c.stagedSquares).1
          (c.stagedSquares.map squareToOp)).1
        stagedSquares := []
        done := c.done ++ [c.stagedSquares.map
          (fun sq => (prevOf c.server.graph sq.squareId, sq))]
        undone := []
        edited := true
        handlerCalls := c.handlerCalls + 1 } := by
  have h2 : (applyScan c.server c.stagedSquares).2.2 = true := h
  rw [applyChanges, if_pos h2, applyScan_didNow]

/-- C1: for every store state and staged buffer, if the apply commits a
transaction, then undo followed by redo restores exactly the
post-apply committed graph: every id maps to the same node value
(text and ordered street list) as immediately after the apply. -/
theorem c1_undo_redo_round_trip (c : Client) (h : applyDidSomething c = true) :
    ∀ j : Nat, dictGet (redo (undo (applyChanges c))).server.graph j =
      dictGet (applyChanges c).server.graph j := by
  intro j
  have hc1 := applyChanges_of_did h
  set g0 := c.server.graph with hg0
  set staged := c.stagedSquares with hstaged
  set tx := staged.map (fun sq => (prevOf g0 sq.squareId, sq)) with htx
  -- the graph right after the apply, pointwise
  have hg1 : ∀ i, dictGet (applyChanges c).server.graph i =
      writeFold (staged.map (fun sq => (sq.squareId, squareVal sq))) i (dictGet g0 i) := by
    intro i
    rw [hc1]
    show dictGet (processOps (applyScan c.server staged).1 (staged.map squareToOp)).1.graph i
        = _
    rw [processOps_graph_get, applyScan_graph]
  -- undo pops exactly the new transaction
  have hlast : (applyChanges c).done.getLast? = some tx := by
    rw [hc1]
    exact List.getLast?_concat _
  have hundo : undo (applyChanges c) =
      { applyChanges c with
        server := tx.foldl undoPair (applyChanges c).server
        done := (applyChanges c).done.dropLast
        undone := (applyChanges c).undone ++ [tx]
        edited := true
        handlerCalls := (applyChanges c).handlerCalls + 1 } := by
    rw [undo, hlast]
  -- the undone graph is the pre-apply graph, pointwise
  have hundoW : tx.map (fun p => (p.1.squareId, squareVal p.1)) =
      staged.map (fun sq => (sq.squareId, dictGet g0 sq.squareId)) := by
    rw [htx, List.map_map]
    apply List.map_congr_left
    intro sq _
    simp only [Function.comp]
    rw [prevOf_squareId, squareVal_prevOf]
  have hg2 : ∀ i, dictGet (undo (applyChanges c)).server.graph i = dictGet g0 i := by
    intro i
    rw [hundo]
    show dictGet (tx.foldl undoPair (applyChanges c).server).graph i = _
    rw [undoFold_graph_get, hundoW, hg1]
    by_cases hmem : ∃ sq ∈ staged, sq.squareId = i
    · apply writeFold_mem
      · intro w hw hkey
        rcases List.mem_map.mp hw with ⟨sq, _, rfl⟩
        simp only at hkey
        rw [hkey]
      · rcases hmem with ⟨sq, hsq, hkey⟩
        exact ⟨(sq.squareId, dictGet g0 sq.squareId), List.mem_map.mpr ⟨sq, hsq, rfl⟩, hkey⟩
    · have hnone : ∀ w ∈ staged.map (fun sq => (sq.squareId, dictGet g0 sq.squareId)),
          w.1 ≠ i := by
        intro w hw
        rcases List.mem_map.mp hw with ⟨sq, hsq, rfl⟩
        exact fun hk => hmem ⟨sq, hsq, hk⟩
      rw [writeFold_not_mem hnone]
      have hnone2 : ∀ w ∈ staged.map (fun sq => (sq.squareId, squareVal sq)), w.1 ≠ i := by
        intro w hw
        rcases List.mem_map.mp hw with ⟨sq, hsq, rfl⟩
        exact fun hk => hmem ⟨sq, hsq, hk⟩
      rw [writeFold_not_mem hnone2]
  -- redo pops the same transaction back
  have hlast2 : (undo (applyChanges c)).undone.getLast? = some tx := by
    rw [hundo]
    show ((applyChanges c).undone ++ [tx]).getLast? = some tx
    exact List.getLast?_concat _
  have hredo : redo (undo (applyChanges c)) =
      { undo (applyChanges c) with
        server := tx.foldl redoPair (undo (applyChanges c)).server
        undone := (undo (applyChanges c)).undone.dropLast
        done := (undo (applyChanges c)).done ++ [tx]
        edited := true
        handlerCalls := (undo (applyChanges c)).handlerCalls + 1 } := by
    rw [redo, hlast2]
  have hredoW : tx.map (fun p => (p.2.squareId, squareVal p.2)) =
      staged.map (fun sq => (sq.squareId, squareVal sq)) := by
    rw [htx, List.map_map]
    rfl
  rw [hredo]
  show dictGet (tx.foldl redoPair (undo (applyChanges c)).server).graph j = _
  rw [redoFold_graph_get, hredoW, hg2, hg1]

/-- A concrete store for witnesses: a fresh server and one staged
square that creates node 1. -/
def witnessClient : Client :=
  ⟨freshServer, [⟨1, some "a", [("x", 0)]⟩], [], [], false, 0⟩

/-- Witness for C1 at a concrete committed apply. -/
theorem c1_witness :
    applyDidSomething witnessClient = true ∧
    ∀ j : Nat, dictGet (redo (undo (applyChanges witnessClient))).server.graph j =
      dictGet (applyChanges witnessClient).server.graph j :=
  ⟨by decide, c1_undo_redo_round_trip witnessClient (by decide)⟩

theorem applyScan_didSomething (srv : ServerState) (l : List Square) :
    (applyScan srv l).2.2 = l.any (fun sq =>
      sq.text.isNone || !((prevOf srv.graph sq.squareId).text == sq.text &&
        (prevOf srv.graph sq.squareId).streets == sq.streets)) := by
  induction l generalizing srv with
  | nil => rfl
  | cons sq rest ih =>
    simp only [applyScan, List.any_cons]
    rw [ih, queriedSquare_eq_prevOf, serverQuery_graph]

/-- C7 (amended): when every staged entry is a live square equal to its
committed state, `applyChanges` records no transaction, leaves the
stacks, the dirty flag and the committed graph unchanged, fires no
notification — and leaves the staged buffer in place (it is NOT
cleared; clearing happens only on the committed path). The method also
returns no value (Python returns `None`), so no boolean is reported. -/
theorem c7_noop_apply_keeps_state (c : Client)
    (h : ∀ sq ∈ c.stagedSquares, sq.text ≠ none ∧
      dictGet c.server.graph sq.squareId = some ⟨sq.text.getD "", sq.streets⟩) :
    (applyChanges c).stagedSquares = c.stagedSquares ∧
    (applyChanges c).done = c.done ∧
    (applyChanges c).undone = c.undone ∧
    (applyChanges c).edited = c.edited ∧
    (applyChanges c).handlerCalls = c.handlerCalls ∧
    (applyChanges c).server.graph = c.server.graph := by
  have hds : (applyScan c.server c.stagedSquares).2.2 = false := by
    rw [applyScan_didSomething]
    rw [List.any_eq_false]
    intro sq hsq
    rcases h sq hsq with ⟨htext, hmatch⟩
    cases htx : sq.text with
    | none => exact absurd htx htext
    | some t =>
      rw [htx] at hmatch
      simp only [Option.getD_some] at hmatch
      simp [prevOf, hmatch, htx]
  have hneg : ¬ ((applyScan c.server c.stagedSquares).2.2 = true) := by
    rw [hds]
    simp
  rw [applyChanges, if_neg hneg]
  exact ⟨rfl, rfl, rfl, rfl, rfl, applyScan_graph c.server c.stagedSquares⟩

/-- Witness for the amended C7 at a concrete no-op apply. -/
theorem c7_witness :
    (∀ sq ∈ (⟨freshServer, [⟨0, some "", []⟩], [], [], false, 0⟩ : Client).stagedSquares,
      sq.text ≠ none ∧
      dictGet (⟨freshServer, [⟨0, some "", []⟩], [], [], false, 0⟩ : Client).server.graph
        sq.squareId = some ⟨sq.text.getD "", sq.streets⟩) ∧
    (applyChanges ⟨freshServer, [⟨0, some "", []⟩], [], [], false, 0⟩).stagedSquares =
      [⟨0, some "", []⟩] :=
  ⟨by decide,
    (c7_noop_apply_keeps_state ⟨freshServer, [⟨0, some "", []⟩], [], [], false, 0⟩
      (by decide)).1⟩

/-- C7 counterexample: the claim says a no-op apply clears the staged
buffer; in the code the buffer is cleared only on the committed path,
so after a no-op apply the staged entry is still there. -/
theorem c7_counterexample :
    (applyChanges ⟨freshServer, [⟨0, some "", []⟩], [], [], false, 0⟩).stagedSquares ≠ [] := by
  decide

-- ### C4: reachability traversal on a cycle

/-- A two-node cycle: 0 → 1 → 0. -/
def cycleGraph : List (Nat × SquareRec) :=
  [(0, ⟨"a", [("s", 1)]⟩), (1, ⟨"b", [("t", 0)]⟩)]

/-- C4 (code bug): `getTree` keeps its visited set local to each
recursive call, so on the two-node cycle the recursion never
terminates: no recursion depth suffices (`RecursionError` in Python).
The claim says the traversal is cycle-safe and returns `{0, 1}`. -/
theorem c4_gettree_diverges_on_cycle :
    ∀ fuel : Nat, getTreeFuel cycleGraph fuel 0 = none ∧ getTreeFuel cycleGraph fuel 1 = none := by
  intro fuel
  induction fuel with
  | zero => exact ⟨rfl, rfl⟩
  | succ n ih =>
    constructor
    · have h := ih.2
      simp only [cycleGraph] at h
      simp [getTreeFuel, goTreeStreets, cycleGraph, dictGet, h]
    · have h := ih.1
      simp only [cycleGraph] at h
      simp [getTreeFuel, goTreeStreets, cycleGraph, dictGet, h]

-- ### C5: the allocator can hand out a live id

/-- C5 (code bug): after upserting `[1, "hello", []]` on a fresh
server, node 1 holds live text, yet `[null]` (allocate) returns id 1:
the watermark update uses `>` instead of `>=`, so an upsert at exactly
`nextSquareId` leaves the watermark behind. -/
theorem c5_alloc_returns_live_id :
    dictGet ((stepOp freshServer ⟨some 1, .full (some "hello") []⟩).1).graph 1 =
      some ⟨"hello", []⟩ ∧
    (stepOp ((stepOp freshServer ⟨some 1, .full (some "hello") []⟩).1)
      ⟨none, .none0⟩).2.id = 1 := by
  decide

-- ### C9: the persistence decoder crashes

/-- C9 (code bug): decoding any id-tagged file with at least one record
raises `AttributeError`: the `json` setter reads `self.nextSquareId`,
which `TextGraph.__init__` never defines. Decode-then-encode therefore
cannot round-trip anything. -/
theorem c9_json_decode_crashes :
    jsonSet ⟨freshServer, [], [], [], false, 0⟩ [.record 0 (some "") []] =
      .error "AttributeError: TextGraph object has no attribute nextSquareId" := by
  rfl

-- ### C2: subtree deletion corrupts surviving street lists

/-- The failing input for C2: 0 has streets to 1 and 2; `deleteTree 1`
removes only node 1. -/
def c2Graph : MGraph :=
  ⟨[⟨0, some "root", [.street "a" 1, .street "b" 2]⟩,
    ⟨1, some "leaf", []⟩, ⟨2, some "other", []⟩], [], [], [], [], false⟩

/-- C2 (code bug): after `deleteTree(1)`, the surviving node 0 should
keep its well-formed street `("b", 2)`; instead the code staged
`newStreets.append(street.destination)`, so node 0's street list
becomes the bare destination int `[2]` — the label is lost and the
element is not a `[name, destination]` street. -/
theorem c2_deltree_stages_bare_destinations :
    (mgeDeleteTree 10 c2Graph 1).map
      (fun g => g.squares.map (fun sq => (sq.squareId, sq.text, sq.streets))) =
    some [(0, some "root", [SVal.bare 2]), (1, none, []), (2, some "other", [])] := by
  decide

-- ### C8: node 0 exists after startup but is deletable

/-- C8 (amended, part 1): server startup guarantees node 0 exists:
whatever graph the file loading produced, `__init__` inserts
`[0, "", []]` when 0 is missing. -/
theorem c8_zero_exists_after_init (s : ServerState) :
    (dictGet (initAdjust s).graph 0).isSome = true := by
  unfold initAdjust
  cases hv : dictGet s.graph 0 with
  | some r => simp [hv]
  | none =>
    simp only [hv]
    rw [dictGet_dictSet]
    simp

/-- C8 counterexample: a protocol delete of id 0 (`[0, null]`) removes
node 0 from a fresh server — nothing makes id 0 undeletable. -/
theorem c8_counterexample :
    dictGet ((stepOp freshServer ⟨some 0, .text1 none⟩).1).graph 0 = none := by
  decide

-- ### C10: read-only mode

/-- C10 (amended): on a read-only server, an operation naming an id
that is in the graph — including any attempted write — mutates neither
the node table nor the reverse index, echoes the stored node, and
reports the fixed status "Read only". (The allocator watermark is
still advanced by the id-resolution step, and an id not in the graph
raises an uncaught `KeyError`.) -/
theorem c10_readonly_rejects_writes (s : ServerState) (op : Op) (i : Nat) (r : SquareRec)
    (h1 : op.idOpt = some i) (h2 : dictGet s.graph i = some r) :
    stepReadonly s op =
      some ⟨(resolveId s (some i)).1, i, r.text, r.streets, "Read only"⟩ ∧
    (resolveId s (some i)).1.graph = s.graph ∧
    (resolveId s (some i)).1.index = s.index := by
  refine ⟨?_, resolveId_graph s (some i), resolveId_index s (some i)⟩
  have hres : resolveId s (some i) = ((resolveId s (some i)).1, i) :=
    Prod.ext rfl (resolveId_some s i)
  have hg : dictGet (resolveId s (some i)).1.graph i = some r := by
    rw [resolveId_graph]
    exact h2
  unfold stepReadonly
  rw [h1, hres]
  simp only [hg]

/-- Witness for the amended C10: a read-only upsert attempt against a
stored node. -/
theorem c10_witness :
    dictGet (⟨[(5, ⟨"x", []⟩)], [], 9⟩ : ServerState).graph 5 = some ⟨"x", []⟩ ∧
    stepReadonly ⟨[(5, ⟨"x", []⟩)], [], 9⟩ ⟨some 5, .full (some "y") []⟩ =
      some ⟨(resolveId ⟨[(5, ⟨"x", []⟩)], [], 9⟩ (some 5)).1, 5, "x", [], "Read only"⟩ :=
  ⟨by decide,
    (c10_readonly_rejects_writes ⟨[(5, ⟨"x", []⟩)], [], 9⟩ ⟨some 5, .full (some "y") []⟩
      5 ⟨"x", []⟩ rfl (by decide)).1⟩

/-- C10 counterexample: in read-only mode an allocation (`[null]`)
still advances the id allocator from 0 to 1, so the claim that every
write leaves the id allocator unchanged fails. -/
theorem c10_counterexample :
    (stepReadonly ⟨[(0, ⟨"", []⟩)], [], 0⟩ ⟨none, .none0⟩).map
      (fun o => o.state.nextSquareId) = some 1 := by
  decide

/-- C3 counterexample: the store-level `deleteSquare(0)` is NOT
rejected: on a fresh server it stages the tombstone, commits a
transaction, and removes node 0. The `id == 0` guard exists only in
the editor UI (`mge.py`, status "Cannot delete square 0."). -/
theorem c3_counterexample :
    dictGet (deleteSquare ⟨freshServer, [], [], [], false, 0⟩ 0).server.graph 0 = none ∧
    (deleteSquare ⟨freshServer, [], [], [], false, 0⟩ 0).done.length = 1 := by
  decide

-- ### Reverse-index bookkeeping

theorem dictGet_eq_none_iff (g : List (Nat × α)) (k : Nat) :
    dictGet g k = none ↔ ∀ p ∈ g, p.1 ≠ k := by
  induction g with
  | nil => simp [dictGet]
  | cons p rest ih =>
    by_cases h : p.1 = k
    · simp [dictGet, h]
    · simp [dictGet, h, ih]

theorem dictGet_mem {g : List (Nat × α)} {k : Nat} {v : α} (h : dictGet g k = some v) :
    (k, v) ∈ g := by
  induction g with
  | nil => simp [dictGet] at h
  | cons p rest ih =>
    cases p with
    | mk a b =>
      by_cases hp : a = k
      · simp only [dictGet, hp, if_pos] at h
        simp only [Option.some.injEq] at h
        subst hp
        subst h
        exact List.mem_cons_self _ _
      · simp only [dictGet, hp, if_neg, if_false] at h
        exact List.mem_cons_of_mem _ (ih h)

theorem dictGet_of_mem_nodup {g : List (Nat × α)}
    (hnd : (g.map (fun p => p.1)).Nodup) {k : Nat} {v : α} (hm : (k, v) ∈ g) :
    dictGet g k = some v := by
  induction g with
  | nil => simp at hm
  | cons p rest ih =>
    simp only [List.map, List.nodup_cons] at hnd
    rcases List.mem_cons.mp hm with rfl | hm2
    · simp [dictGet]
    · have hne : p.1 ≠ k := by
        intro hk
        exact hnd.1 (hk ▸ (List.mem_map.mpr ⟨(k, v), hm2, rfl⟩))
      simp only [dictGet, hne, if_false]
      exact ih hnd.2 hm2

theorem mem_keys_dictSet (g : List (Nat × α)) (k : Nat) (v : α) (x : Nat) :
    x ∈ (dictSet g k v).map (fun p => p.1) ↔ x ∈ g.map (fun p => p.1) ∨ x = k := by
  induction g with
  | nil => simp [dictSet]
  | cons p rest ih =>
    by_cases h : p.1 = k
    · simp only [dictSet, h, if_pos, List.map, List.mem_cons]
      subst h
      tauto
    · simp only [dictSet, h, if_neg, if_false, List.map, List.mem_cons, ih]
      tauto

theorem nodup_keys_dictSet {g : List (Nat × α)} (hnd : (g.map (fun p => p.1)).Nodup)
    (k : Nat) (v : α) : ((dictSet g k v).map (fun p => p.1)).Nodup := by
  induction g with
  | nil => simp [dictSet]
  | cons p rest ih =>
    simp only [List.map, List.nodup_cons] at hnd
    by_cases h : p.1 = k
    · simp only [dictSet, h, if_pos, List.map, List.nodup_cons]
      exact ⟨h ▸ hnd.1, hnd.2⟩
    · simp only [dictSet, h, if_neg, if_false, List.map, List.nodup_cons]
      refine ⟨?_, ih hnd.2⟩
      intro hmem
      rcases (mem_keys_dictSet rest k v p.1).mp hmem with hin | hk
      · exact hnd.1 hin
      · exact h hk

theorem nodup_keys_dictErase {g : List (Nat × α)} (hnd : (g.map (fun p => p.1)).Nodup)
    (k : Nat) : ((dictErase g k).map (fun p => p.1)).Nodup := by
  induction g with
  | nil => simp [dictErase]
  | cons p rest ih =>
    simp only [List.map, List.nodup_cons] at hnd
    by_cases h : p.1 = k
    · have : dictErase (p :: rest) k = dictErase rest k := by
        simp [dictErase, List.filter, h]
      rw [this]
      exact ih hnd.2
    · have : dictErase (p :: rest) k = p :: dictErase rest k := by
        simp [dictErase, List.filter, h]
      rw [this]
      simp only [List.map, List.nodup_cons]
      refine ⟨?_, ih hnd.2⟩
      intro hmem
      rcases List.mem_map.mp hmem with ⟨q, hq, hkey⟩
      have : q ∈ rest := List.mem_of_mem_filter hq
      exact hnd.1 (List.mem_map.mpr ⟨q, this, hkey⟩)

theorem mem_streetContrib {i : Nat} {strs : List (String × Nat)} {d : Nat} {e : StreetEntry} :
    e ∈ streetContrib i strs d ↔ ∃ st ∈ strs, st.2 = d ∧ e = (i, st.1, st.2) := by
  simp only [streetContrib, List.mem_filterMap]
  constructor
  · rintro ⟨st, hst, he⟩
    by_cases hd : st.2 = d
    · rw [if_pos hd] at he
      exact ⟨st, hst, hd, (Option.some.injEq _ _ ▸ he).symm⟩
    · rw [if_neg hd] at he
      cases he
  · rintro ⟨st, hst, hd, rfl⟩
    exact ⟨st, hst, by rw [if_pos hd]⟩

theorem streetContrib_origin {i : Nat} {strs : List (String × Nat)} {d : Nat}
    {e : StreetEntry} (h : e ∈ streetContrib i strs d) : e.1 = i := by
  rcases mem_streetContrib.mp h with ⟨st, _, _, rfl⟩
  rfl

theorem filter_ne_self_of_all {p : α → Bool} {l : List α} (h : ∀ a ∈ l, p a = true) :
    l.filter p = l :=
  List.filter_eq_self.mpr h

theorem filter_nil_of_none {p : α → Bool} {l : List α} (h : ∀ a ∈ l, p a = false) :
    l.filter p = [] :=
  List.filter_eq_nil_iff.mpr (by intro a ha; rw [h a ha]; simp)

/-- Deleting a node drops exactly its contributions from the
brute-force scan. -/
theorem bruteEntries_dictErase (g : List (Nat × SquareRec)) (i d : Nat) :
    bruteEntries (dictErase g i) d = (bruteEntries g d).filter (fun e => e.1 ≠ i) := by
  induction g with
  | nil => rfl
  | cons p rest ih =>
    by_cases h : p.1 = i
    · have h2 : dictErase (p :: rest) i = dictErase rest i := by
        simp [dictErase, List.filter, h]
      rw [h2]
      rw [show bruteEntries (p :: rest) d =
        streetContrib p.1 p.2.streets d ++ bruteEntries rest d from List.flatMap_cons p rest _]
      rw [List.filter_append, ih]
      have h3 : (streetContrib p.1 p.2.streets d).filter (fun e => e.1 ≠ i) = [] := by
        apply filter_nil_of_none
        intro e he
        rw [streetContrib_origin he, h]
        simp
      rw [h3, List.nil_append]
    · have h2 : dictErase (p :: rest) i = p :: dictErase rest i := by
        simp [dictErase, List.filter, h]
      rw [h2]
      rw [show bruteEntries (p :: dictErase rest i) d =
        streetContrib p.1 p.2.streets d ++ bruteEntries (dictErase rest i) d from
        List.flatMap_cons p _ _]
      rw [show bruteEntries (p :: rest) d =
        streetContrib p.1 p.2.streets d ++ bruteEntries rest d from List.flatMap_cons p rest _]
      rw [List.filter_append, ih]
      have h3 : (streetContrib p.1 p.2.streets d).filter (fun e => e.1 ≠ i) =
          streetContrib p.1 p.2.streets d := by
        apply filter_ne_self_of_all
        intro e he
        rw [streetContrib_origin he]
        simp [h]
      rw [h3]

/-- Overwriting a node replaces exactly its contributions in the
brute-force scan, up to placement. -/
theorem bruteEntries_dictSet_perm (g : List (Nat × SquareRec)) (i : Nat) (v : SquareRec)
    (d : Nat) (hnd : (g.map (fun p => p.1)).Nodup) :
    (bruteEntries (dictSet g i v) d).Perm
      ((bruteEntries g d).filter (fun e => e.1 ≠ i) ++ streetContrib i v.streets d) := by
  induction g with
  | nil =>
    rw [show dictSet ([] : List (Nat × SquareRec)) i v = [(i, v)] from rfl]
    rw [show bruteEntries [(i, v)] d = streetContrib i v.streets d ++ bruteEntries [] d from
      List.flatMap_cons _ _ _]
    simp [bruteEntries]
  | cons p rest ih =>
    simp only [List.map, List.nodup_cons] at hnd
    by_cases h : p.1 = i
    · have h2 : dictSet (p :: rest) i v = (i, v) :: rest := by
        simp [dictSet, h]
      rw [h2]
      rw [show bruteEntries ((i, v) :: rest) d =
        streetContrib i v.streets d ++ bruteEntries rest d from List.flatMap_cons _ _ _]
      rw [show bruteEntries (p :: rest) d =
        streetContrib p.1 p.2.streets d ++ bruteEntries rest d from List.flatMap_cons _ _ _]
      rw [List.filter_append]
      have h3 : (streetContrib p.1 p.2.streets d).filter (fun e => e.1 ≠ i) = [] := by
        apply filter_nil_of_none
        intro e he
        rw [streetContrib_origin he, h]
        simp
      have h4 : (bruteEntries rest d).filter (fun e => e.1 ≠ i) = bruteEntries rest d := by
        apply filter_ne_self_of_all
        intro e he
        rcases List.mem_flatMap.mp he with ⟨q, hq, heq⟩
        rw [streetContrib_origin heq]
        have : q.1 ≠ i := by
          intro hqi
          exact hnd.1 (h ▸ hqi ▸ List.mem_map.mpr ⟨q, hq, rfl⟩)
        simp [this]
      rw [h3, h4, List.nil_append]
      exact List.perm_append_comm
    · have h2 : dictSet (p :: rest) i v = p :: dictSet rest i v := by
        simp [dictSet, h]
      rw [h2]
      rw [show bruteEntries (p :: dictSet rest i v) d =
        streetContrib p.1 p.2.streets d ++ bruteEntries (dictSet rest i v) d from
        List.flatMap_cons _ _ _]
      rw [show bruteEntries (p :: rest) d =
        streetContrib p.1 p.2.streets d ++ bruteEntries rest d from List.flatMap_cons _ _ _]
      rw [List.filter_append]
      have h3 : (streetContrib p.1 p.2.streets d).filter (fun e => e.1 ≠ i) =
          streetContrib p.1 p.2.streets d := by
        apply filter_ne_self_of_all
        intro e he
        rw [streetContrib_origin he]
        simp [h]
      rw [h3, List.append_assoc]
      exact List.Perm.append_left _ (ih hnd.2)

theorem filter_idem (p : α → Bool) (l : List α) : (l.filter p).filter p = l.filter p := by
  apply filter_ne_self_of_all
  intro a ha
  exact (List.mem_filter.mp ha).2

theorem dictGetD_dictSet (idx : List (Nat × List StreetEntry)) (k : Nat)
    (v : List StreetEntry) (d : Nat) :
    dictGetD (dictSet idx k v) d [] = if d = k then v else dictGetD idx d [] := by
  unfold dictGetD
  rw [dictGet_dictSet]
  by_cases h : d = k <;> simp [h]

/-- Effect of the stale-entry cleanup on every bucket: buckets named by
an old street destination are filtered; every other bucket is
untouched. -/
theorem indexCleanup_getD (idx : List (Nat × List StreetEntry)) (i : Nat)
    (old : List (String × Nat)) (d : Nat) :
    dictGetD (indexCleanup idx i old) d [] =
      if d ∈ old.map (fun st => st.2) then
        (dictGetD idx d []).filter (fun e => e.1 ≠ i)
      else dictGetD idx d [] := by
  induction old generalizing idx with
  | nil => simp [indexCleanup]
  | cons st rest ih =>
    rw [show indexCleanup idx i (st :: rest) =
      indexCleanup (dictSet idx st.2 ((dictGetD idx st.2 []).filter (fun e => e.1 ≠ i)))
        i rest from rfl]
    rw [ih]
    by_cases hmem : d ∈ rest.map (fun st => st.2)
    · rw [if_pos hmem, if_pos (by simp [hmem])]
      rw [dictGetD_dictSet]
      by_cases hd : d = st.2
      · rw [if_pos hd, filter_idem]
        rw [hd]
      · rw [if_neg hd]
    · rw [if_neg hmem]
      rw [dictGetD_dictSet]
      by_cases hd : d = st.2
      · rw [if_pos hd, if_pos (by simp [hd])]
        rw [hd]
      · rw [if_neg hd, if_neg (by simp [hd, hmem])]

/-- Effect of inserting the new streets: every bucket stays sorted and
gains exactly the new node's contributions, up to placement. -/
theorem indexInsert_getD (idx : List (Nat × List StreetEntry)) (i : Nat)
    (strs : List (String × Nat))
    (hsorted : ∀ d, List.Sorted entryLeR (dictGetD idx d [])) :
    ∀ d, List.Sorted entryLeR (dictGetD (indexInsert idx i strs) d []) ∧
      (dictGetD (indexInsert idx i strs) d []).Perm
        (dictGetD idx d [] ++ streetContrib i strs d) := by
  induction strs generalizing idx with
  | nil =>
    intro d
    exact ⟨hsorted d, by simp [indexInsert, streetContrib]⟩
  | cons st rest ih =>
    intro d
    rw [show indexInsert idx i (st :: rest) =
      indexInsert (dictSet idx st.2
        (sortEntries (dictGetD idx st.2 [] ++ [(i, st.1, st.2)]))) i rest from rfl]
    have hsorted2 : ∀ d2, List.Sorted entryLeR
        (dictGetD (dictSet idx st.2
          (sortEntries (dictGetD idx st.2 [] ++ [(i, st.1, st.2)]))) d2 []) := by
      intro d2
      rw [dictGetD_dictSet]
      by_cases hd : d2 = st.2
      · rw [if_pos hd]
        exact sortEntries_sorted _
      · rw [if_neg hd]
        exact hsorted d2
    rcases ih _ hsorted2 d with ⟨hs, hp⟩
    refine ⟨hs, hp.trans ?_⟩
    rw [dictGetD_dictSet]
    by_cases hd : d = st.2
    · rw [if_pos hd, hd]
      have hcontrib : streetContrib i (st :: rest) st.2 =
          (i, st.1, st.2) :: streetContrib i rest st.2 := by
        simp [streetContrib, List.filterMap]
      rw [hcontrib]
      have h1 : (sortEntries (dictGetD idx st.2 [] ++ [(i, st.1, st.2)]) ++
          streetContrib i rest st.2).Perm
          ((dictGetD idx st.2 [] ++ [(i, st.1, st.2)]) ++ streetContrib i rest st.2) :=
        List.Perm.append_right _ (sortEntries_perm _)
      refine h1.trans ?_
      rw [List.append_assoc]
      exact List.Perm.refl _
    · rw [if_neg hd]
      have hcontrib : streetContrib i (st :: rest) d = streetContrib i rest d := by
        have hne : st.2 ≠ d := fun hh => hd hh.symm
        simp [streetContrib, List.filterMap, hne]
      rw [hcontrib]

-- ### Preservation of the index invariant

theorem sortEntries_filter (p : StreetEntry → Bool) (l : List StreetEntry) :
    (sortEntries l).filter p = sortEntries (l.filter p) :=
  List.eq_of_perm_of_sorted
    (((sortEntries_perm l).filter p).trans (sortEntries_perm (l.filter p)).symm)
    (List.Sorted.filter p (sortEntries_sorted l))
    (sortEntries_sorted _)

/-- Origins of brute-force entries are keys of the node table. -/
theorem bruteEntries_origin_key {g : List (Nat × SquareRec)} {d : Nat} {e : StreetEntry}
    (h : e ∈ bruteEntries g d) : ∃ p ∈ g, p.1 = e.1 := by
  rcases List.mem_flatMap.mp h with ⟨p, hp, he⟩
  exact ⟨p, hp, (streetContrib_origin he).symm⟩

/-- After the cleanup loop, every bucket equals the sorted brute-force
entries with the overwritten node's contributions removed. -/
theorem cleanup_matches {g : List (Nat × SquareRec)} {idx : List (Nat × List StreetEntry)}
    (hnd : (g.map (fun p => p.1)).Nodup) (hm : IndexMatches g idx)
    {i : Nat} {old : SquareRec} (hold : dictGet g i = some old) :
    ∀ d, dictGetD (indexCleanup idx i old.streets) d [] =
      sortEntries ((bruteEntries g d).filter (fun e => e.1 ≠ i)) := by
  intro d
  rw [indexCleanup_getD]
  by_cases hmem : d ∈ old.streets.map (fun st => st.2)
  · rw [if_pos hmem, hm d, sortEntries_filter]
  · rw [if_neg hmem, hm d]
    congr 1
    have : (bruteEntries g d).filter (fun e => e.1 ≠ i) = bruteEntries g d := by
      apply filter_ne_self_of_all
      intro e he
      rcases List.mem_flatMap.mp he with ⟨p, hp, hcon⟩
      have horigin := streetContrib_origin hcon
      by_cases hpi : p.1 = i
      · have hpv : p.2 = old := by
          have h1 : dictGet g p.1 = some p.2 := dictGet_of_mem_nodup hnd (by
            cases p
            exact hp)
          rw [hpi, hold] at h1
          exact (Option.some.injEq _ _ ▸ h1).symm
        rcases mem_streetContrib.mp hcon with ⟨st, hst, hd2, rfl⟩
        exact absurd (List.mem_map.mpr ⟨st, hpv ▸ hst, hd2⟩) hmem
      · rw [horigin]
        simp [hpi]
    rw [this]

/-- When the id is not a key, no cleanup happens and no filtering is
needed either. -/
theorem cleanup_matches_absent {g : List (Nat × SquareRec)}
    {idx : List (Nat × List StreetEntry)} (hm : IndexMatches g idx)
    {i : Nat} (hget : dictGet g i = none) :
    ∀ d, dictGetD idx d [] =
      sortEntries ((bruteEntries g d).filter (fun e => e.1 ≠ i)) := by
  intro d
  rw [hm d]
  congr 1
  have : (bruteEntries g d).filter (fun e => e.1 ≠ i) = bruteEntries g d := by
    apply filter_ne_self_of_all
    intro e he
    rcases bruteEntries_origin_key he with ⟨p, hp, hkey⟩
    have : p.1 ≠ i := (dictGet_eq_none_iff g i).mp hget p hp
    rw [← hkey]
    simp [this]
  rw [this]

/-- The upsert path preserves the index invariant: cleanup plus
re-insertion leaves every bucket equal to the sorted brute-force scan
of the updated node table. -/
theorem indexMatches_upsert {g : List (Nat × SquareRec)} {idx : List (Nat × List StreetEntry)}
    (hnd : (g.map (fun p => p.1)).Nodup) (hm : IndexMatches g idx)
    (i : Nat) (txt : String) (strs : List (String × Nat)) :
    IndexMatches (dictSet g i ⟨txt, strs⟩)
      (indexInsert
        (match dictGet g i with
         | some old => indexCleanup idx i old.streets
         | none => idx) i strs) := by
  intro d
  have hidx1 : ∀ d2, dictGetD
      (match dictGet g i with
       | some old => indexCleanup idx i old.streets
       | none => idx) d2 [] =
      sortEntries ((bruteEntries g d2).filter (fun e => e.1 ≠ i)) := by
    cases hv : dictGet g i with
    | some old =>
      simpa [hv] using cleanup_matches hnd hm hv
    | none =>
      simpa [hv] using cleanup_matches_absent hm hv
  have hsorted1 : ∀ d2, List.Sorted entryLeR (dictGetD
      (match dictGet g i with
       | some old => indexCleanup idx i old.streets
       | none => idx) d2 []) := by
    intro d2
    rw [hidx1 d2]
    exact sortEntries_sorted _
  rcases indexInsert_getD _ i strs hsorted1 d with ⟨hs, hp⟩
  have hchain : (dictGetD (indexInsert
      (match dictGet g i with
       | some old => indexCleanup idx i old.streets
       | none => idx) i strs) d []).Perm (bruteEntries (dictSet g i ⟨txt, strs⟩) d) := by
    refine hp.trans ?_
    rw [hidx1 d]
    refine (List.Perm.append_right _ (sortEntries_perm _)).trans ?_
    exact (bruteEntries_dictSet_perm g i ⟨txt, strs⟩ d hnd).symm
  exact List.eq_of_perm_of_sorted
    (hchain.trans (sortEntries_perm (bruteEntries (dictSet g i ⟨txt, strs⟩) d)).symm)
    hs (sortEntries_sorted _)

/-- Deleting a node whose street list is empty preserves the index
invariant (the code does not clean the index on delete; the invariant
survives only because the node contributed nothing). -/
theorem indexMatches_erase {g : List (Nat × SquareRec)} {idx : List (Nat × List StreetEntry)}
    (hnd : (g.map (fun p => p.1)).Nodup) (hm : IndexMatches g idx)
    {i : Nat} {old : SquareRec} (hold : dictGet g i = some old)
    (hempty : old.streets = []) :
    IndexMatches (dictErase g i) idx := by
  intro d
  rw [hm d, bruteEntries_dictErase]
  congr 1
  symm
  apply filter_ne_self_of_all
  intro e he
  rcases List.mem_flatMap.mp he with ⟨p, hp, hcon⟩
  have horigin := streetContrib_origin hcon
  by_cases hpi : p.1 = i
  · have hpv : p.2 = old := by
      have h1 : dictGet g p.1 = some p.2 := dictGet_of_mem_nodup hnd (by
        cases p
        exact hp)
      rw [hpi, hold] at h1
      exact (Option.some.injEq _ _ ▸ h1).symm
    rcases mem_streetContrib.mp hcon with ⟨st, hst, _, rfl⟩
    rw [hpv, hempty] at hst
    simp at hst
  · rw [horigin]
    simp [hpi]

/-- The operation is an effective deletion of a node that still has
outgoing streets — exactly the case in which `interpretLine` leaves
stale entries in the reverse index. -/
def stepDeletesStreets (g : List (Nat × SquareRec)) (i : Nat) : OpRest → Bool
  | .text1 none =>
    (match dictGet g i with
     | some old => !old.streets.isEmpty
     | none => false)
  | .full none _ =>
    (match dictGet g i with
     | some old => !old.streets.isEmpty
     | none => false)
  | _ => false

theorem stepOpCore_preserves_inv (s : ServerState) (i : Nat) (rest : OpRest)
    (hnd : GraphKeysNodup s) (hcons : IndexConsistent s)
    (hsafe : stepDeletesStreets s.graph i rest = false) :
    GraphKeysNodup (stepOpCore s i rest).1 ∧ IndexConsistent (stepOpCore s i rest).1 := by
  cases rest with
  | none0 =>
    cases hv : dictGet s.graph i with
    | none =>
      simp only [stepOpCore, hv]
      exact ⟨hnd, hcons⟩
    | some r =>
      simp only [stepOpCore, hv]
      constructor
      · exact nodup_keys_dictSet hnd i ⟨r.text, r.streets⟩
      · show IndexMatches (dictSet s.graph i ⟨r.text, r.streets⟩) _
        have := indexMatches_upsert hnd hcons i r.text r.streets
        rw [hv] at this
        exact this
  | text1 t =>
    cases hv : dictGet s.graph i with
    | none =>
      simp only [stepOpCore, hv]
      exact ⟨hnd, hcons⟩
    | some r =>
      cases t with
      | some t2 =>
        simp only [stepOpCore, hv]
        constructor
        · exact nodup_keys_dictSet hnd i ⟨t2, r.streets⟩
        · show IndexMatches (dictSet s.graph i ⟨t2, r.streets⟩) _
          have := indexMatches_upsert hnd hcons i t2 r.streets
          rw [hv] at this
          exact this
      | none =>
        simp only [stepDeletesStreets, hv] at hsafe
        have hempty : r.streets = [] := by
          cases hst : r.streets with
          | nil => rfl
          | cons a b =>
            rw [hst] at hsafe
            simp at hsafe
        simp only [stepOpCore, hv]
        constructor
        · exact nodup_keys_dictErase hnd i
        · show IndexMatches (dictErase s.graph i) s.index
          exact indexMatches_erase hnd hcons hv hempty
  | full t strs =>
    cases t with
    | some t2 =>
      simp only [stepOpCore]
      constructor
      · exact nodup_keys_dictSet hnd i ⟨t2, strs⟩
      · show IndexMatches (dictSet s.graph i ⟨t2, strs⟩) _
        exact indexMatches_upsert hnd hcons i t2 strs
    | none =>
      cases hv : dictGet s.graph i with
      | none =>
        simp only [stepOpCore, hv]
        exact ⟨hnd, hcons⟩
      | some r =>
        simp only [stepDeletesStreets, hv] at hsafe
        have hempty : r.streets = [] := by
          cases hst : r.streets with
          | nil => rfl
          | cons a b =>
            rw [hst] at hsafe
            simp at hsafe
        simp only [stepOpCore, hv]
        constructor
        · exact nodup_keys_dictErase hnd i
        · show IndexMatches (dictErase s.graph i) s.index
          exact indexMatches_erase hnd hcons hv hempty

/-- The operation deletes a node that still has outgoing streets, at
the resolved id. -/
def opDeletesStreets (s : ServerState) (op : Op) : Bool :=
  stepDeletesStreets s.graph (resolveId s op.idOpt).2 op.rest

/-- C6 (amended): upserts, queries and allocations — and deletions of
nodes with no outgoing streets — preserve the equality between the
reverse index and the brute-force scan; the preservation fails exactly
for deletions of nodes that still have outgoing streets (see the
counterexample), because `interpretLine` removes the node without
cleaning the index. -/
theorem c6_index_consistency_preserved (s : ServerState) (op : Op)
    (hnd : GraphKeysNodup s) (hcons : IndexConsistent s)
    (hsafe : opDeletesStreets s op = false) :
    IndexConsistent (stepOp s op).1 ∧ GraphKeysNodup (stepOp s op).1 := by
  have hstep : stepOp s op = stepOpCore (resolveId s op.idOpt).1 (resolveId s op.idOpt).2
      op.rest := rfl
  have hnd2 : GraphKeysNodup (resolveId s op.idOpt).1 := by
    show ((resolveId s op.idOpt).1.graph.map (fun p => p.1)).Nodup
    rw [resolveId_graph]
    exact hnd
  have hcons2 : IndexConsistent (resolveId s op.idOpt).1 := by
    show IndexMatches (resolveId s op.idOpt).1.graph (resolveId s op.idOpt).1.index
    rw [resolveId_graph, resolveId_index]
    exact hcons
  have hsafe2 : stepDeletesStreets (resolveId s op.idOpt).1.graph
      (resolveId s op.idOpt).2 op.rest = false := by
    rw [resolveId_graph]
    exact hsafe
  rw [hstep]
  exact (stepOpCore_preserves_inv _ _ _ hnd2 hcons2 hsafe2).symm

/-- C6 counterexample: upsert `[1, "a", [["s", 0]]]` then delete
`[1, null]` on a fresh server; the reverse-index bucket for
destination 0 still holds the entry from deleted node 1, while the
brute-force scan of the live nodes holds nothing. -/
theorem c6_counterexample :
    dictGetD ((stepOp ((stepOp freshServer ⟨some 1, .full (some "a") [("s", 0)]⟩).1)
        ⟨some 1, .text1 none⟩).1).index 0 [] ≠
      sortEntries (bruteEntries ((stepOp ((stepOp freshServer
        ⟨some 1, .full (some "a") [("s", 0)]⟩).1) ⟨some 1, .text1 none⟩).1).graph 0) := by
  decide

/-- Witness for the amended C6: a fresh server is consistent, and an
upsert that adds a street keeps it consistent. -/
theorem c6_witness :
    GraphKeysNodup freshServer ∧ IndexConsistent freshServer ∧
    opDeletesStreets freshServer ⟨some 1, .full (some "x") [("s", 0)]⟩ = false ∧
    IndexConsistent ((stepOp freshServer ⟨some 1, .full (some "x") [("s", 0)]⟩).1) :=
  ⟨by unfold GraphKeysNodup; decide, fun d => rfl, by decide,
    (c6_index_consistency_preserved freshServer ⟨some 1, .full (some "x") [("s", 0)]⟩
      (by unfold GraphKeysNodup; decide) (fun d => rfl) (by decide)).1⟩

-- ### Cascading deletion (deleteSquare)

/-- A deep copy of a square with every street into `k` removed
(`incommingStreetOrigin.streets = [street for street in ... if
street.destination != squareId]`). -/
def stripSquare (sq : Square) (k : Nat) : Square :=
  ⟨sq.squareId, sq.text, sq.streets.filter (fun st => st.2 ≠ k)⟩

/-- For a stored node, the incoming streets a query reports are the
sorted brute-force entries targeting it (the query re-upserts the same
value, and the re-upserted index still matches the unchanged graph). -/
theorem queriedIncomming_present {s : ServerState} (hnd : GraphKeysNodup s)
    (hcons : IndexConsistent s) {k : Nat} {r : SquareRec}
    (hk : dictGet s.graph k = some r) :
    queriedIncomming s k = sortEntries (bruteEntries s.graph k) := by
  have h1 : stepOp s ⟨some k, .none0⟩ = stepOpCore (resolveId s (some k)).1 k .none0 := by
    simp only [stepOp, resolveId_some]
  have hg := resolveId_graph s (some k)
  have hi := resolveId_index s (some k)
  have hk2 : dictGet (resolveId s (some k)).1.graph k = some r := by
    rw [hg]
    exact hk
  unfold queriedIncomming
  rw [h1]
  simp only [stepOpCore, hk2]
  have hmatch := @indexMatches_upsert (resolveId s (some k)).1.graph
    (resolveId s (some k)).1.index
    (by rw [hg]; exact hnd) (by rw [hg, hi]; exact hcons) k r.text r.streets
  rw [hk2] at hmatch
  have := hmatch k
  rw [this]
  have hsame : dictSet (resolveId s (some k)).1.graph k ⟨r.text, r.streets⟩ =
      (resolveId s (some k)).1.graph := dictSet_self hk2
  rw [hsame, hg]

theorem deleteChangesLoop_graph (k : Nat) (srv : ServerState) (inc : List StreetEntry) :
    (deleteChangesLoop k srv inc).1.graph = srv.graph := by
  induction inc generalizing srv with
  | nil => rfl
  | cons e rest ih =>
    simp only [deleteChangesLoop]
    rw [ih, serverQuery_graph]

theorem deleteChangesLoop_changes (k : Nat) (srv : ServerState) (inc : List StreetEntry) :
    (deleteChangesLoop k srv inc).2 =
      inc.map (fun e => stripSquare (prevOf srv.graph e.1) k) := by
  induction inc generalizing srv with
  | nil => rfl
  | cons e rest ih =>
    simp only [deleteChangesLoop, List.map]
    rw [ih, serverQuery_graph, queriedSquare_eq_prevOf]
    rfl

theorem writeFold_append (ws1 ws2 : List (Nat × Option SquareRec)) (j : Nat)
    (d : Option SquareRec) :
    writeFold (ws1 ++ ws2) j d = writeFold ws2 j (writeFold ws1 j d) :=
  List.foldl_append _ _ _ _

theorem applyScan_did_of_tomb {srv : ServerState} {l : List Square}
    (h : ∃ sq ∈ l, sq.text = none) : (applyScan srv l).2.2 = true := by
  rw [applyScan_didSomething, List.any_eq_true]
  rcases h with ⟨sq, hsq, htext⟩
  exact ⟨sq, hsq, by simp [htext]⟩

theorem squareVal_stripSquare_prevOf (g : List (Nat × SquareRec)) (j k : Nat) :
    squareVal (stripSquare (prevOf g j) k) =
      (dictGet g j).map (fun q => ⟨q.text, q.streets.filter (fun st => st.2 ≠ k)⟩) := by
  cases hv : dictGet g j with
  | none => simp [prevOf, hv, stripSquare, squareVal]
  | some q => simp [prevOf, hv, stripSquare, squareVal]

/-- C3 (amended): for an id stored in the graph (no id = 0 guard exists
at store level — see the counterexample), `deleteSquare` removes
exactly that node and strips exactly the streets whose destination is
that id from exactly the nodes that had them: every other id keeps its
value unchanged (stripping is a no-op on street lists without such an
edge). Hypotheses: empty staged buffer, unique node-table keys, and a
reverse index that matches the brute-force scan. -/
theorem c3_delete_square_strips_exactly (c : Client) (k : Nat) (r : SquareRec)
    (hstaged : c.stagedSquares = [])
    (hnd : GraphKeysNodup c.server) (hcons : IndexConsistent c.server)
    (hk : dictGet c.server.graph k = some r) :
    ∀ j, dictGet (deleteSquare c k).server.graph j =
      if j = k then none
      else (dictGet c.server.graph j).map
        (fun q => ⟨q.text, q.streets.filter (fun st => st.2 ≠ k)⟩) := by
  intro j
  have hinc : queriedIncomming c.server k = sortEntries (bruteEntries c.server.graph k) :=
    queriedIncomming_present hnd hcons hk
  set g := c.server.graph with hgdef
  set inc := queriedIncomming c.server k with hincdef
  -- the client threaded through the queries: graph unchanged
  have hsrv0 : (serverQuery c.server k).graph = g := serverQuery_graph c.server k
  have hsrv1 : (deleteChangesLoop k (serverQuery c.server k) inc).1.graph = g := by
    rw [deleteChangesLoop_graph, hsrv0]
  have hchanges : (deleteChangesLoop k (serverQuery c.server k) inc).2 =
      inc.map (fun e => stripSquare (prevOf g e.1) k) := by
    rw [deleteChangesLoop_changes, hsrv0]
  -- unfold deleteSquare into one applyChanges over the staged list
  rw [show deleteSquare c k = applyChanges
    { c with
      server := (deleteChangesLoop k (serverQuery c.server k) inc).1
      stagedSquares := c.stagedSquares ++
        ((deleteChangesLoop k (serverQuery c.server k) inc).2 ++ [⟨k, none, []⟩]) } from rfl]
  set c3 : Client :=
    { c with
      server := (deleteChangesLoop k (serverQuery c.server k) inc).1
      stagedSquares := c.stagedSquares ++
        ((deleteChangesLoop k (serverQuery c.server k) inc).2 ++ [⟨k, none, []⟩]) } with hc3
  have hstaged3 : c3.stagedSquares =
      inc.map (fun e => stripSquare (prevOf g e.1) k) ++ [⟨k, none, []⟩] := by
    rw [hc3]
    show c.stagedSquares ++ _ = _
    rw [hstaged, hchanges, List.nil_append]
  have hdid : applyDidSomething c3 = true := by
    unfold applyDidSomething
    apply applyScan_did_of_tomb
    refine ⟨⟨k, none, []⟩, ?_, rfl⟩
    rw [hstaged3]
    exact List.mem_append_right _ (List.mem_cons_self _ _)
  have hc1 := applyChanges_of_did hdid
  rw [hc1]
  show dictGet (processOps (applyScan c3.server c3.stagedSquares).1
    (c3.stagedSquares.map squareToOp)).1.graph j = _
  rw [processOps_graph_get, applyScan_graph]
  have hg3 : c3.server.graph = g := hsrv1
  rw [hg3, hstaged3, List.map_append, writeFold_append]
  rw [show ([⟨k, none, []⟩] : List Square).map (fun sq => (sq.squareId, squareVal sq)) =
    [(k, none)] from rfl]
  by_cases hj : j = k
  · subst hj
    rw [writeFold_cons, if_pos rfl, writeFold_nil, if_pos rfl]
  · rw [writeFold_cons, if_neg (fun hh => hj hh.symm), writeFold_nil, if_neg hj]
    rw [List.map_map]
    have hmapped : ∀ w ∈ inc.map ((fun sq => (sq.squareId, squareVal sq)) ∘
        (fun e => stripSquare (prevOf g e.1) k)), w.1 = j →
        w.2 = (dictGet g j).map (fun q => ⟨q.text, q.streets.filter (fun st => st.2 ≠ k)⟩) := by
      intro w hw hkey
      rcases List.mem_map.mp hw with ⟨e, he, rfl⟩
      simp only [Function.comp] at hkey ⊢
      rw [show (stripSquare (prevOf g e.1) k).squareId = e.1 from by
        rw [stripSquare, prevOf_squareId]] at hkey
      rw [hkey] at *
      exact squareVal_stripSquare_prevOf g j k
    by_cases hmem : ∃ e ∈ inc, e.1 = j
    · apply writeFold_mem hmapped
      rcases hmem with ⟨e, he, hkey⟩
      refine ⟨_, List.mem_map.mpr ⟨e, he, rfl⟩, ?_⟩
      simp only [Function.comp]
      rw [show (stripSquare (prevOf g e.1) k).squareId = e.1 from by
        rw [stripSquare, prevOf_squareId]]
      exact hkey
    · have hnone : ∀ w ∈ inc.map ((fun sq => (sq.squareId, squareVal sq)) ∘
          (fun e => stripSquare (prevOf g e.1) k)), w.1 ≠ j := by
        intro w hw
        rcases List.mem_map.mp hw with ⟨e, he, rfl⟩
        simp only [Function.comp]
        rw [show (stripSquare (prevOf g e.1) k).squareId = e.1 from by
          rw [stripSquare, prevOf_squareId]]
        exact fun hh => hmem ⟨e, he, hh⟩
      rw [writeFold_not_mem hnone]
      cases hv : dictGet g j with
      | none => rfl
      | some q =>
        have hnostreet : ∀ st ∈ q.streets, st.2 ≠ k := by
          intro st hst hstk
          apply hmem
          refine ⟨(j, st.1, st.2), ?_, rfl⟩
          rw [hinc]
          apply (sortEntries_perm _).mem_iff.mpr
          apply List.mem_flatMap.mpr
          exact ⟨(j, q), dictGet_mem hv, mem_streetContrib.mpr ⟨st, hst, hstk, rfl⟩⟩
        have hfilter : q.streets.filter (fun st => !decide (st.2 = k)) = q.streets := by
          apply filter_ne_self_of_all
          intro st hst
          simp [hnostreet st hst]
        simp [hfilter]

/-- Witness for the amended C3 at a concrete deletion. -/
theorem c3_witness :
    (⟨freshServer, [], [], [], false, 0⟩ : Client).stagedSquares = [] ∧
    GraphKeysNodup freshServer ∧ IndexConsistent freshServer ∧
    dictGet freshServer.graph 0 = some ⟨"", []⟩ ∧
    ∀ j, dictGet (deleteSquare ⟨freshServer, [], [], [], false, 0⟩ 0).server.graph j =
      if j = 0 then none
      else (dictGet (⟨freshServer, [], [], [], false, 0⟩ : Client).server.graph j).map
        (fun q => ⟨q.text, q.streets.filter (fun st => st.2 ≠ 0)⟩) :=
  ⟨rfl, by unfold GraphKeysNodup; decide, fun d => rfl, by decide,
    c3_delete_square_strips_exactly ⟨freshServer, [], [], [], false, 0⟩ 0 ⟨"", []⟩ rfl
      (by unfold GraphKeysNodup; decide) (fun d => rfl) (by decide)⟩
